import Mathlib

/-!
# Verification of the flux-context file-discovery and selection engine

Shallow embedding of the core of the repository:

* `src/adapters/fs_scanner.rs` — the `FsScanner` walker: noise veto,
  hidden/ignore/depth pruning, path-substring and extension filters,
  final sort (`scan`).
* `src/ui/state.rs` — the `App` selection tree: `App::new` (tree build),
  `update_view`/`collect_visible` (view projection), `toggle_selection`,
  `toggle_expand`, `move_up`, `move_down`, `get_selected_paths`.

Paths are modelled as lists of component strings (`List String`); the
string form of a path joins components with `/` as on Unix.  Filesystem
trees are modelled by an inductive type; the directory walker of the
external `ignore` crate is modelled from its documented behaviour (the
crate is not part of this repository): per-entry filters apply to entries
below the root, a missing root yields a single error result, an
unreadable entry yields an error result, and gitignore matching is kept
abstract as an arbitrary predicate parameter.
-/

namespace FluxContext

/-! ## Byte-wise and component-wise path orders

Rust compares `PathBuf`s component by component (`Path::cmp` walks
`components()`), each component compared as an `OsStr`, i.e. byte-wise.
The spec instead speaks of byte-wise comparison of the whole path string.
Both orders are defined here so they can be compared.  Characters in the
model are compared by code point, which on ASCII names coincides with
byte order. -/

/-- Lexicographic comparison of character lists by code point
(byte-wise comparison for ASCII strings). -/
def chrsCmp : List Char → List Char → Ordering
  | [], [] => .eq
  | [], _ :: _ => .lt
  | _ :: _, [] => .gt
  | a :: as, b :: bs =>
    match compare a.toNat b.toNat with
    | .eq => chrsCmp as bs
    | o => o

/-- Byte-wise comparison of strings. -/
def strCmp (a b : String) : Ordering := chrsCmp a.data b.data

/-- Component-wise path comparison: this is how Rust `Path::cmp`
orders paths (lexicographic over the component sequence, components
compared byte-wise). -/
def pathCmp : List String → List String → Ordering
  | [], [] => .eq
  | [], _ :: _ => .lt
  | _ :: _, [] => .gt
  | a :: as, b :: bs =>
    match strCmp a b with
    | .eq => pathCmp as bs
    | o => o

/-- `a` is no greater than `b` in the component-wise path order. -/
def pathLe (a b : List String) : Bool := pathCmp a b ≠ Ordering.gt

/-- Byte-wise "no greater" on strings, the order the spec mandates for
the string form of relative paths. -/
def byteStrLe (a b : String) : Bool := strCmp a b ≠ Ordering.gt

/-- The string form of a relative path: components joined with `/`. -/
def pathString (p : List String) : String := String.intercalate "/" p

/-! ## Substring containment (Rust `str::contains`) -/

/-- `containsSub pat hay` is Rust `hay.contains(pat)`: `pat` occurs as a
contiguous substring of `hay`. -/
def containsSub (pat : List Char) : List Char → Bool
  | [] => pat.isEmpty
  | c :: t => pat.isPrefixOf (c :: t) || containsSub pat t

/-- String form of `containsSub`, matching `path_str.contains(pattern)`. -/
def strContains (hay pat : String) : Bool := containsSub pat.data hay.data

/-! ## Rust `Path::extension`

`extension()` is the portion of the file name after the last `.`;
it is `None` when the name has no `.` or when the only `.` is the
leading character (dotfiles such as `.gitignore` have no extension). -/

/-- Characters after the last dot of `name`, provided some character
precedes that dot; `none` otherwise.  Mirrors Rust `Path::extension` on a
single file name. -/
def rustExtension (name : List Char) : Option (List Char) :=
  let rev := name.reverse
  let after := rev.takeWhile (fun c => c ≠ '.')
  if after.length = rev.length then
    none
  else if rev.length = after.length + 1 then
    none
  else
    some after.reverse

example : rustExtension "a.txt".data = some "txt".data := by decide
example : rustExtension "ab".data = none := by decide
example : rustExtension ".gitignore".data = none := by decide
example : rustExtension "a.".data = some [] := by decide
example : rustExtension "a.b.c".data = some "c".data := by decide

/-- ASCII lowercasing of a string, modelling `str::to_lowercase` on the
ASCII extensions the configuration works with. -/
def lowerStr (s : String) : String := ⟨s.data.map Char.toLower⟩

/-! ## Configuration and file records (`core/config.rs`, `core/file.rs`)

Only the fields the scanner reads are modelled.  `HashSet<String>` fields
become lists queried by membership; `root_path` is kept as a string since
the scanner only ever joins it in front of entry paths. -/

/-- The scanner-relevant slice of `ContextConfig`. -/
structure ContextConfig where
  root_path : String
  max_depth : Option Nat
  include_hidden : Bool
  no_ignore : Bool
  include_extensions : List String
  exclude_extensions : List String
  include_paths : List String
  exclude_paths : List String
deriving Repr, DecidableEq

/-- `ContextConfig::default()`. -/
def ContextConfig.default : ContextConfig :=
  { root_path := "."
    max_depth := none
    include_hidden := false
    no_ignore := false
    include_extensions := []
    exclude_extensions := []
    include_paths := []
    exclude_paths := [] }

/-- `FileNode` from `core/file.rs`: absolute path (string form) plus
relative path (component list). -/
structure FileNode where
  path : String
  relative_path : List String
deriving Repr, DecidableEq

/-! ## Noise veto (`FsScanner::is_noise`) -/

/-- `NOISE_FILES` from `fs_scanner.rs`. -/
def noiseFiles : List String :=
  ["Cargo.lock", "package-lock.json", "yarn.lock", "pnpm-lock.yaml",
   "poetry.lock", "Pipfile.lock", ".DS_Store", "Thumbs.db"]

/-- `NOISE_DIRS` from `fs_scanner.rs`. -/
def noiseDirs : List String :=
  [".git", ".svn", ".hg", "target", "build", "dist", "node_modules",
   "__pycache__", ".venv", "venv", ".idea", ".vscode"]

/-- `FsScanner::is_noise`: the name is on the noise-file list (any entry
type), or the entry is a directory whose name is on the noise-dir
list. -/
def isNoise (name : String) (isDir : Bool) : Bool :=
  name ∈ noiseFiles || (isDir && name ∈ noiseDirs)

/-! ## Filter check (`FsScanner::matches_filters`)

The source receives the **full** path (`entry.path()`, root included) and
derives the extension from it; the extension of a full path is the
extension of its final component, so the model receives the full path
string for the substring filters and the file name for the extension. -/

/-- `FsScanner::matches_filters`, with `pathStr` the string form of the
full (root-joined) path and `fname` its final component. -/
def matchesFilters (pathStr : String) (fname : String)
    (config : ContextConfig) : Bool :=
  if !config.exclude_paths.isEmpty &&
      config.exclude_paths.any (fun ex => strContains pathStr ex) then
    false
  else if !config.include_paths.isEmpty &&
      !config.include_paths.any (fun inc => strContains pathStr inc) then
    false
  else
    let ext := lowerStr ⟨((rustExtension fname.data).getD [])⟩
    if !config.exclude_extensions.isEmpty &&
        ext ∈ config.exclude_extensions then
      false
    else if !config.include_extensions.isEmpty &&
        ext ∉ config.include_extensions then
      false
    else
      true

/-! ## Final sort (`files.sort_by(|a, b| a.relative_path.cmp(&b.relative_path))`)

`slice::sort_by` is a stable sort; a stable insertion sort by the same
comparator has identical output. -/

/-- Stable insertion of a record into a list sorted by `pathCmp` on
relative paths: the new element goes after existing equal elements. -/
def insertRec (x : FileNode) : List FileNode → List FileNode
  | [] => [x]
  | y :: t =>
    if pathCmp x.relative_path y.relative_path = Ordering.lt then
      x :: y :: t
    else
      y :: insertRec x t

/-- Stable sort of the emitted records by relative path under the
component-wise `PathBuf` order, modelling the scanner's final
`sort_by`. -/
def sortRecords (l : List FileNode) : List FileNode :=
  l.foldl (fun acc x => insertRec x acc) []

/-! ## The walk (`ignore::WalkBuilder`, modelled) and `FsScanner::scan`

The walker itself lives in the external `ignore` crate.  Its behaviour is
modelled from the crate's documented semantics: the root is yielded first
and is exempt from the per-entry filters; every entry below the root is
dropped by `filter_entry` (the noise veto), by the hidden filter (name
starting with `.`) when hidden files are excluded, by the ignore rules
(abstracted as a caller-supplied predicate on relative paths, consulted
only when `no_ignore` is false) or by the depth bound; an unreadable
entry surfaces as an `Err` item in the stream; a missing root produces a
single `Err` item.  `scan` then consumes that stream exactly as the
source loop does. -/

/-- A filesystem subtree: a regular file, a readable directory with its
entries, or an entry whose traversal fails (permission denied, dangling
link, …). -/
inductive FsEntry where
  | file (name : String)
  | dir (name : String) (entries : List FsEntry)
  | bad (name : String)
deriving Repr

/-- Name of an entry. -/
def FsEntry.name : FsEntry → String
  | .file n => n
  | .dir n _ => n
  | .bad n => n

/-- Whether an entry is a readable directory (what `file_type().is_dir()`
reports; an unreadable entry has no file type). -/
def FsEntry.isDir : FsEntry → Bool
  | .dir _ _ => true
  | _ => false

/-- An item yielded by the walk: a relative path (components below the
root) plus whether the entry is a regular file. -/
structure WalkItem where
  rel : List String
  isFile : Bool
deriving Repr, DecidableEq

/-- Whether a file name starts with the Unix hidden marker `.`
(the test the walker's hidden filter applies to each name). -/
def startsWithDot (s : String) : Bool :=
  match s.data with
  | '.' :: _ => true
  | _ => false

/-- Per-entry depth-bound check: `max_depth = some d` prunes entries
strictly deeper than `d` (the root has depth 0). -/
def depthPruned (config : ContextConfig) (depth : Nat) : Bool :=
  match config.max_depth with
  | some d => decide (d < depth)
  | none => false

/-- Walk of a list of entries whose containing directory has relative
path `rel`, the entries themselves at depth `depth` (root = 0).  Per
entry, in turn: the noise veto (`filter_entry`), the hidden filter, the
abstract ignore predicate, and the depth bound; an unreadable entry
yields `Err`; a surviving readable directory is yielded and its entries
walked.  The recursion is bounded by a structural `fuel` parameter so
that the definition computes by kernel reduction; any fuel at least the
total entry count of the tree yields the complete walk, and every
verified property below is proved for all fuels. -/
def walkList (config : ContextConfig) (ign : List String → Bool) :
    Nat → List FsEntry → List String → Nat → List (Except Unit WalkItem)
  | 0, _, _, _ => []
  | _ + 1, [], _, _ => []
  | fuel + 1, e :: rest, rel, depth =>
    let here : List (Except Unit WalkItem) :=
      if isNoise e.name e.isDir then []
      else if !config.include_hidden && startsWithDot e.name then []
      else if !config.no_ignore && ign (rel ++ [e.name]) then []
      else if depthPruned config depth then []
      else
        match e with
        | .file n => [.ok ⟨rel ++ [n], true⟩]
        | .bad _ => [.error ()]
        | .dir n es =>
          .ok ⟨rel ++ [n], false⟩ ::
            walkList config ign fuel es (rel ++ [n]) (depth + 1)
    here ++ walkList config ign fuel rest rel depth

/-- The string form of the full path of an entry: the root path joined
in front of the relative components (`root.join(rel)`). -/
def fullPathStr (config : ContextConfig) (rel : List String) : String :=
  config.root_path ++ "/" ++ pathString rel

/-- One iteration of the `scan` result loop: an `Ok` regular file that
passes `matches_filters` (on the full, root-joined path) is appended; any
other item — a directory, a filtered file or an `Err` — is skipped (the
`Err` arm logs a warning and continues). -/
def procStep (config : ContextConfig) (acc : List FileNode)
    (r : Except Unit WalkItem) : List FileNode :=
  match r with
  | .ok e =>
    if !e.isFile then acc
    else if !matchesFilters (fullPathStr config e.rel) (e.rel.getLastD "") config then acc
    else acc ++ [⟨fullPathStr config e.rel, e.rel⟩]
  | .error _ => acc

/-- `FsScanner::scan`'s consumption of the walk stream: fold the result
loop over the stream, sort the collected records, return them under
`Ok`.  Mirrors the loop and final lines of `scan`. -/
def processResults (results : List (Except Unit WalkItem))
    (config : ContextConfig) : Except Unit (List FileNode) :=
  .ok (sortRecords (results.foldl (procStep config) []))

/-- End-to-end scan of a root directory.  `root = none` models a missing
(or wholly unreadable) root: the `ignore` walker then yields a single
`Err` item.  `root = some entries` models a readable root directory with
the given entries; the root itself is yielded first, exempt from the
per-entry filters, and is not a regular file, so the loop's type filter
skips it. -/
def scanFs (fuel : Nat) (root : Option (List FsEntry))
    (config : ContextConfig) (ign : List String → Bool) :
    Except Unit (List FileNode) :=
  match root with
  | none => processResults [.error ()] config
  | some entries =>
    processResults
      (.ok ⟨[], false⟩ :: walkList config ign fuel entries [] 1) config

/-! ## The interactive selection tree (`ui/state.rs`)

`UiNode` and `App` mirror the source structures; `ListState` contributes
only its `selected : Option<usize>` field, which is all the state logic
reads or writes.  Node paths are relative-path component lists (the
builder pushes components of `relative_path`, never the root). -/

/-- `UiNode` from `ui/state.rs`. -/
structure UiNode where
  path : List String
  name : String
  is_dir : Bool
  expanded : Bool
  selected : Bool
  depth : Nat
  children : List Nat
deriving Repr, DecidableEq

/-- `App` from `ui/state.rs`; `list_state` is the `selected` field of the
`ratatui` `ListState`. -/
structure App where
  nodes : List UiNode
  root_indices : List Nat
  list_state : Option Nat
  view_items : List Nat
  should_quit : Bool
  confirmed : Bool
deriving Repr, DecidableEq

/-! ### View projection (`collect_visible` / `update_view`)

`collect_visible` pushes the node, then recurses into its children when
it is an expanded directory.  The recursion is bounded by a structural
fuel consumed only on descent; in every arena the builder can produce,
child indices strictly exceed their parent's index, so a fuel of
`nodes.length` is never exhausted and the bounded function agrees with
the source.  All view lemmas below hold for every fuel. -/

/-- Subtree of the view produced from node `idx`: the node itself,
followed by its children's subtrees when it is an expanded directory. -/
def visOne (ns : List UiNode) : Nat → Nat → List Nat
  | 0, idx => [idx]
  | fuel + 1, idx =>
    idx :: (match ns.get? idx with
      | some n =>
        if n.is_dir && n.expanded then (n.children.map (visOne ns fuel)).flatten
        else []
      | none => [])

/-- `update_view`'s result: the concatenated subtree views of the roots,
in order. -/
def computeView (ns : List UiNode) (roots : List Nat) : List Nat :=
  (roots.map (visOne ns ns.length)).flatten

/-- `App::update_view`. -/
def updateView (a : App) : App :=
  { a with view_items := computeView a.nodes a.root_indices }

/-! ### Recursive selection (`set_recursive_selection`) -/

/-- `set_recursive_selection`: set the node's `selected` flag, then
recurse into its (unchanged) children, threading the arena.  Fuel as for
`visOne`. -/
def setSels : Nat → List UiNode → Nat → Bool → List UiNode
  | 0, ns, _, _ => ns
  | fuel + 1, ns, idx, state =>
    match ns.get? idx with
    | none => ns
    | some n =>
      let ns1 := ns.set idx { n with selected := state }
      n.children.foldl (fun acc c => setSels fuel acc c state) ns1

/-- `App::toggle_selection`: acts only when the cursor selects a valid
view position; flips that node's flag and propagates it downward. -/
def toggleSelection (a : App) : App :=
  match a.list_state with
  | none => a
  | some si =>
    match a.view_items.get? si with
    | none => a
    | some nodeIdx =>
      match a.nodes.get? nodeIdx with
      | none => a
      | some n =>
        { a with nodes := setSels a.nodes.length a.nodes nodeIdx (!n.selected) }

/-- `App::toggle_expand`: acts only when the cursor selects a valid view
position holding a directory; flips `expanded` and recomputes the view.
The cursor is not touched. -/
def toggleExpand (a : App) : App :=
  match a.list_state with
  | none => a
  | some si =>
    match a.view_items.get? si with
    | none => a
    | some nodeIdx =>
      match a.nodes.get? nodeIdx with
      | none => a
      | some n =>
        if n.is_dir then
          updateView
            { a with nodes := a.nodes.set nodeIdx { n with expanded := !n.expanded } }
        else a

/-- `App::move_up`. -/
def moveUp (a : App) : App :=
  let i :=
    match a.list_state with
    | some i => if i = 0 then 0 else i - 1
    | none => 0
  { a with list_state := some i }

/-- `App::move_down`.  The source computes `self.view_items.len() - 1`
on `usize`; when the view is empty and a selection exists this
subtraction overflows, which panics in a debug build — modelled as
`none`. -/
def moveDown (a : App) : Option App :=
  match a.list_state with
  | some i =>
    match a.view_items.length with
    | 0 => none
    | l + 1 =>
      some { a with list_state := some (if l ≤ i then l else i + 1) }
  | none => some { a with list_state := some 0 }

/-- `App::get_selected_paths`: the paths of all selected non-directory
nodes, scanning the full arena.  The source collects into a `HashSet`;
the model keeps the list, and set-level statements are phrased through
membership. -/
def getSelectedPaths (a : App) : List (List String) :=
  (a.nodes.filter (fun n => n.selected && !n.is_dir)).map (fun n => n.path)

/-! ### Tree construction (`App::new`)

The source walks each record's relative-path components, keeping a
`HashMap<PathBuf, usize>` from path prefixes to arena indices; the map is
modelled as an association list with the same `contains_key` / `insert` /
`index` operations (keys are inserted at most once, so lookup agrees
with the hash map). -/

/-- Builder state: arena, path-prefix index map, root indices. -/
structure BuildState where
  nodes : List UiNode
  pathToIndex : List (List String × Nat)
  rootIndices : List Nat
deriving Repr

/-- Association-list lookup modelling `HashMap` lookup. -/
def lookupPath (m : List (List String × Nat)) (k : List String) : Option Nat :=
  match m with
  | [] => none
  | (k', v) :: t => if k' = k then some v else lookupPath t k

/-- `nodes[p].children.push(idx); nodes[p].is_dir = true;` -/
def addChild (nodes : List UiNode) (p idx : Nat) : List UiNode :=
  match nodes.get? p with
  | some n => nodes.set p { n with children := n.children ++ [idx], is_dir := true }
  | none => nodes

/-- One iteration of the inner component loop of `App::new`: extend the
current path by `comp`, create the node if unseen (attaching it to the
current parent or to the roots), and return the new current path and
parent index. -/
def stepComp (rel : List String) :
    BuildState × List String × Option Nat → String →
    BuildState × List String × Option Nat
  | (st, curPath, parentIdx), comp =>
    let curPath' := curPath ++ [comp]
    let st' :=
      if (lookupPath st.pathToIndex curPath').isSome then st
      else
        let node : UiNode :=
          { path := curPath', name := comp, is_dir := decide (curPath' ≠ rel),
            expanded := true, selected := true,
            depth := curPath'.length - 1, children := [] }
        let idx := st.nodes.length
        let nodes' := st.nodes ++ [node]
        match parentIdx with
        | some p =>
          { nodes := addChild nodes' p idx,
            pathToIndex := (curPath', idx) :: st.pathToIndex,
            rootIndices := st.rootIndices }
        | none =>
          { nodes := nodes',
            pathToIndex := (curPath', idx) :: st.pathToIndex,
            rootIndices := st.rootIndices ++ [idx] }
    (st', curPath', lookupPath st'.pathToIndex curPath')

/-- The two nested loops of `App::new`. -/
def buildState (files : List FileNode) : BuildState :=
  files.foldl
    (fun st f => (f.relative_path.foldl (stepComp f.relative_path) (st, [], none)).1)
    ⟨[], [], []⟩

/-- `App::new`: build the arena, compute the initial view, and select
index 0 when the view is non-empty.  The root-path argument is unused by
the source (`_root_path`) — node paths are built from relative paths
only. -/
def AppNew (files : List FileNode) (_rootPath : List String) : App :=
  let st := buildState files
  let view := computeView st.nodes st.rootIndices
  { nodes := st.nodes
    root_indices := st.rootIndices
    list_state := if view.isEmpty then none else some 0
    view_items := view
    should_quit := false
    confirmed := false }

/-! ### Structural predicates on the arena

`App::new` produces arenas in which every child index strictly exceeds
its parent's index (children are appended after their parent exists),
each index has at most one parent, and root indices are nobody's
children.  These facts are packaged as the decidable predicate
`ForestWF`; descendant relationships are captured by `Reach`. -/

/-- Children list of arena index `i` (`nodes[i].children`; empty when
out of range — the source would panic there, and all verified statements
keep indices in range). -/
def childs (ns : List UiNode) (i : Nat) : List Nat :=
  match ns.get? i with
  | some n => n.children
  | none => []

/-- `Reach ns i m`: `m` is `i` itself or a transitive child of `i` —
the "descendant or equal" relation of the tree. -/
inductive Reach (ns : List UiNode) : Nat → Nat → Prop
  | refl (i : Nat) : Reach ns i i
  | step {i j m : Nat} : Reach ns i j → m ∈ childs ns j → Reach ns i m

/-- Well-formedness of arena and roots as established by `App::new`:
children strictly above their parent and in range, duplicate-free child
lists, unique parents, duplicate-free in-range roots that are nobody's
children.  Stated with bounded quantifiers so the predicate is
decidable. -/
def ForestWF (ns : List UiNode) (roots : List Nat) : Prop :=
  (∀ i, i < ns.length → ∀ j ∈ childs ns i, i < j ∧ j < ns.length) ∧
  (∀ i, i < ns.length → (childs ns i).Nodup) ∧
  (∀ p, p < ns.length → ∀ q, q < ns.length →
    ∀ j ∈ childs ns p, j ∈ childs ns q → p = q) ∧
  roots.Nodup ∧
  (∀ r ∈ roots, r < ns.length) ∧
  (∀ r ∈ roots, ∀ p, p < ns.length → r ∉ childs ns p)

instance forestWFDecidable (ns : List UiNode) (roots : List Nat) :
    Decidable (ForestWF ns roots) := by
  unfold ForestWF
  infer_instance

/-- `App::confirm`. -/
def confirmApp (a : App) : App := { a with confirmed := true, should_quit := true }

/-- `App::quit`. -/
def quitApp (a : App) : App := { a with should_quit := true }

/-- Application states reachable through the program: an initial state
built by `App::new` from any scanned file list, closed under the public
state-mutating operations (with `move_down` stepping only when it does
not panic). -/
inductive ReachableApp : App → Prop
  | init (files : List FileNode) (rootPath : List String) :
      ReachableApp (AppNew files rootPath)
  | sel {a : App} : ReachableApp a → ReachableApp (toggleSelection a)
  | exp {a : App} : ReachableApp a → ReachableApp (toggleExpand a)
  | up {a : App} : ReachableApp a → ReachableApp (moveUp a)
  | down {a b : App} : ReachableApp a → moveDown a = some b → ReachableApp b
  | conf {a : App} : ReachableApp a → ReachableApp (confirmApp a)
  | quit {a : App} : ReachableApp a → ReachableApp (quitApp a)

/-- The state invariant maintained by every reachable application state:
the arena is a well-formed forest, the stored view is the projection of
the current arena, and on a non-empty view the cursor is a valid
index. -/
def AppInv (a : App) : Prop :=
  ForestWF a.nodes a.root_indices ∧
  a.view_items = computeView a.nodes a.root_indices ∧
  (a.view_items ≠ [] → ∃ i, a.list_state = some i ∧ i < a.view_items.length)

/-- Invariant of the builder state: every index stored in the path map
is in range, and the arena with the collected roots is a well-formed
forest. -/
def BInv (st : BuildState) : Prop :=
  (∀ kv ∈ st.pathToIndex, kv.2 < st.nodes.length) ∧
  ForestWF st.nodes st.rootIndices

/-- Invariant of the inner-loop triple of `App::new`: the builder state
is sound and the running parent index, when present, is in range. -/
def TInv (t : BuildState × List String × Option Nat) : Prop :=
  BInv t.1 ∧ ∀ p, t.2.2 = some p → p < t.1.nodes.length

/-! ## Order lemmas for the comparators -/

lemma charNatCmp_eq_iff (a b : Char) : compare a.toNat b.toNat = Ordering.eq ↔ a = b := by
  rw [Nat.compare_eq_eq]
  constructor
  · intro h
    apply Char.eq_of_val_eq
    apply UInt32.ext
    exact h
  · intro h
    rw [h]

lemma chrsCmp_eq_iff : ∀ a b : List Char, chrsCmp a b = Ordering.eq ↔ a = b := by
  intro a
  induction a with
  | nil => intro b; cases b <;> simp [chrsCmp]
  | cons x xs ih =>
    intro b
    cases b with
    | nil => simp [chrsCmp]
    | cons y ys =>
      simp only [chrsCmp]
      cases h : compare x.toNat y.toNat with
      | eq =>
        have hxy : x = y := (charNatCmp_eq_iff x y).mp h
        subst hxy
        simp [ih]
      | lt =>
        have hne : x ≠ y := fun he => by
          rw [(charNatCmp_eq_iff x y).mpr he] at h
          exact Ordering.noConfusion h
        simp [hne]
      | gt =>
        have hne : x ≠ y := fun he => by
          rw [(charNatCmp_eq_iff x y).mpr he] at h
          exact Ordering.noConfusion h
        simp [hne]

lemma chrsCmp_swap : ∀ a b : List Char, chrsCmp a b = (chrsCmp b a).swap := by
  intro a
  induction a with
  | nil => intro b; cases b <;> simp [chrsCmp, Ordering.swap]
  | cons x xs ih =>
    intro b
    cases b with
    | nil => simp [chrsCmp, Ordering.swap]
    | cons y ys =>
      simp only [chrsCmp]
      rw [show compare x.toNat y.toNat = (compare y.toNat x.toNat).swap from
        (Nat.compare_swap y.toNat x.toNat).symm]
      cases compare y.toNat x.toNat <;> simp [Ordering.swap, ih]

lemma chrsCmp_lt_trans :
    ∀ a b c : List Char, chrsCmp a b = Ordering.lt → chrsCmp b c = Ordering.lt →
      chrsCmp a c = Ordering.lt := by
  intro a
  induction a with
  | nil =>
    intro b c h1 h2
    cases b with
    | nil => simp [chrsCmp] at h1
    | cons y ys =>
      cases c with
      | nil => simp [chrsCmp] at h2
      | cons z zs => simp [chrsCmp]
  | cons x xs ih =>
    intro b c h1 h2
    cases b with
    | nil => simp [chrsCmp] at h1
    | cons y ys =>
      cases c with
      | nil => simp [chrsCmp] at h2
      | cons z zs =>
        simp only [chrsCmp] at h1 h2 ⊢
        cases hxy : compare x.toNat y.toNat with
        | gt => rw [hxy] at h1; exact absurd h1 (by simp)
        | lt =>
          rw [hxy] at h1
          cases hyz : compare y.toNat z.toNat with
          | gt => rw [hyz] at h2; exact absurd h2 (by simp)
          | lt =>
            rw [hyz] at h2
            have : x.toNat < z.toNat :=
              Nat.lt_trans (Nat.compare_eq_lt.mp hxy) (Nat.compare_eq_lt.mp hyz)
            rw [Nat.compare_eq_lt.mpr this]
          | eq =>
            have hy : y = z := (charNatCmp_eq_iff y z).mp hyz
            subst hy
            rw [hxy]
        | eq =>
          have hx : x = y := (charNatCmp_eq_iff x y).mp hxy
          subst hx
          rw [hxy] at h1
          cases hyz : compare x.toNat z.toNat with
          | gt => rw [hyz] at h2; exact absurd h2 (by simp)
          | lt => rfl
          | eq => rw [hyz] at h2; exact ih _ _ h1 h2

lemma strCmp_eq_iff (a b : String) : strCmp a b = Ordering.eq ↔ a = b := by
  unfold strCmp
  rw [chrsCmp_eq_iff]
  constructor
  · intro h
    cases a; cases b; congr
  · intro h; rw [h]

lemma strCmp_swap (a b : String) : strCmp a b = (strCmp b a).swap :=
  chrsCmp_swap a.data b.data

lemma strCmp_lt_trans {a b c : String} :
    strCmp a b = Ordering.lt → strCmp b c = Ordering.lt → strCmp a c = Ordering.lt :=
  chrsCmp_lt_trans a.data b.data c.data

lemma pathCmp_eq_iff : ∀ a b : List String, pathCmp a b = Ordering.eq ↔ a = b := by
  intro a
  induction a with
  | nil => intro b; cases b <;> simp [pathCmp]
  | cons x xs ih =>
    intro b
    cases b with
    | nil => simp [pathCmp]
    | cons y ys =>
      simp only [pathCmp]
      cases h : strCmp x y with
      | eq =>
        have hxy : x = y := (strCmp_eq_iff x y).mp h
        subst hxy
        simp [ih]
      | lt =>
        have hne : x ≠ y := fun he => by
          rw [(strCmp_eq_iff x y).mpr he] at h
          exact Ordering.noConfusion h
        simp [hne]
      | gt =>
        have hne : x ≠ y := fun he => by
          rw [(strCmp_eq_iff x y).mpr he] at h
          exact Ordering.noConfusion h
        simp [hne]

lemma pathCmp_swap : ∀ a b : List String, pathCmp a b = (pathCmp b a).swap := by
  intro a
  induction a with
  | nil => intro b; cases b <;> simp [pathCmp, Ordering.swap]
  | cons x xs ih =>
    intro b
    cases b with
    | nil => simp [pathCmp, Ordering.swap]
    | cons y ys =>
      simp only [pathCmp]
      rw [strCmp_swap x y]
      cases strCmp y x <;> simp [Ordering.swap, ih]

lemma pathCmp_lt_trans :
    ∀ a b c : List String, pathCmp a b = Ordering.lt → pathCmp b c = Ordering.lt →
      pathCmp a c = Ordering.lt := by
  intro a
  induction a with
  | nil =>
    intro b c h1 h2
    cases b with
    | nil => simp [pathCmp] at h1
    | cons y ys =>
      cases c with
      | nil => simp [pathCmp] at h2
      | cons z zs => simp [pathCmp]
  | cons x xs ih =>
    intro b c h1 h2
    cases b with
    | nil => simp [pathCmp] at h1
    | cons y ys =>
      cases c with
      | nil => simp [pathCmp] at h2
      | cons z zs =>
        simp only [pathCmp] at h1 h2 ⊢
        cases hxy : strCmp x y with
        | gt => rw [hxy] at h1; exact absurd h1 (by simp)
        | lt =>
          rw [hxy] at h1
          cases hyz : strCmp y z with
          | gt => rw [hyz] at h2; exact absurd h2 (by simp)
          | lt => rw [strCmp_lt_trans hxy hyz]
          | eq =>
            have hy : y = z := (strCmp_eq_iff y z).mp hyz
            subst hy
            rw [hxy]
        | eq =>
          have hx : x = y := (strCmp_eq_iff x y).mp hxy
          subst hx
          rw [hxy] at h1
          cases hyz : strCmp x z with
          | gt => rw [hyz] at h2; exact absurd h2 (by simp)
          | lt => rfl
          | eq => rw [hyz] at h2; exact ih _ _ h1 h2

lemma pathLe_of_lt {a b : List String} (h : pathCmp a b = Ordering.lt) :
    pathLe a b = true := by
  simp [pathLe, h]

lemma pathLe_of_not_lt {a b : List String} (h : ¬ pathCmp a b = Ordering.lt) :
    pathLe b a = true := by
  rw [pathCmp_swap] at h
  simp only [pathLe, decide_eq_true_eq]
  intro hgt
  rw [hgt] at h
  exact h rfl

lemma pathLe_trans {a b c : List String} (h1 : pathLe a b = true)
    (h2 : pathLe b c = true) : pathLe a c = true := by
  simp only [pathLe, decide_eq_true_eq] at h1 h2 ⊢
  cases hab : pathCmp a b with
  | gt => exact absurd hab h1
  | eq =>
    have : a = b := (pathCmp_eq_iff a b).mp hab
    subst this
    exact h2
  | lt =>
    cases hbc : pathCmp b c with
    | gt => exact absurd hbc h2
    | eq =>
      have : b = c := (pathCmp_eq_iff b c).mp hbc
      subst this
      rw [hab]
      simp
    | lt =>
      rw [pathCmp_lt_trans a b c hab hbc]
      simp

/-! ## The sort step: membership and sortedness -/

/-- Order on records used by the scanner's final sort. -/
def recLe (a b : FileNode) : Prop := pathLe a.relative_path b.relative_path = true

lemma mem_insertRec (z x : FileNode) :
    ∀ l : List FileNode, z ∈ insertRec x l ↔ z = x ∨ z ∈ l := by
  intro l
  induction l with
  | nil => simp [insertRec]
  | cons y t ih =>
    simp only [insertRec]
    by_cases h : pathCmp x.relative_path y.relative_path = Ordering.lt
    · simp [h]
    · simp only [h, if_false, List.mem_cons, ih]
      tauto

lemma pairwise_insertRec (x : FileNode) :
    ∀ l : List FileNode, l.Pairwise recLe → (insertRec x l).Pairwise recLe := by
  intro l
  induction l with
  | nil => intro _; simp [insertRec, recLe]
  | cons y t ih =>
    intro hp
    rcases List.pairwise_cons.mp hp with ⟨hy, ht⟩
    simp only [insertRec]
    by_cases h : pathCmp x.relative_path y.relative_path = Ordering.lt
    · rw [if_pos h]
      refine List.pairwise_cons.mpr ⟨?_, hp⟩
      intro z hz
      rcases List.mem_cons.mp hz with rfl | hz'
      · exact pathLe_of_lt h
      · exact pathLe_trans (pathLe_of_lt h) (hy z hz')
    · rw [if_neg h]
      refine List.pairwise_cons.mpr ⟨?_, ih ht⟩
      intro z hz
      rcases (mem_insertRec z x t).mp hz with rfl | hz'
      · exact pathLe_of_not_lt h
      · exact hy z hz'

lemma sortRecords_aux_pairwise :
    ∀ (l acc : List FileNode), acc.Pairwise recLe →
      (l.foldl (fun acc x => insertRec x acc) acc).Pairwise recLe := by
  intro l
  induction l with
  | nil => intro acc h; simpa using h
  | cons x t ih =>
    intro acc h
    simpa using ih (insertRec x acc) (pairwise_insertRec x acc h)

lemma sortRecords_pairwise (l : List FileNode) : (sortRecords l).Pairwise recLe :=
  sortRecords_aux_pairwise l [] (by simp)

lemma mem_sortRecords_aux :
    ∀ (l acc : List FileNode) (z : FileNode),
      z ∈ l.foldl (fun acc x => insertRec x acc) acc ↔ z ∈ acc ∨ z ∈ l := by
  intro l
  induction l with
  | nil => intro acc z; simp
  | cons x t ih =>
    intro acc z
    simp only [List.foldl_cons, ih, mem_insertRec, List.mem_cons]
    tauto

lemma mem_sortRecords (z : FileNode) (l : List FileNode) :
    z ∈ sortRecords l ↔ z ∈ l := by
  unfold sortRecords
  rw [mem_sortRecords_aux]
  simp

/-! ## Membership characterization of the scan output -/

lemma mem_procFold (config : ContextConfig) :
    ∀ (results : List (Except Unit WalkItem)) (acc : List FileNode) (z : FileNode),
      z ∈ results.foldl (procStep config) acc ↔
        z ∈ acc ∨ ∃ e : WalkItem, Except.ok e ∈ results ∧ e.isFile = true ∧
          matchesFilters (fullPathStr config e.rel) (e.rel.getLastD "") config = true ∧
          z = ⟨fullPathStr config e.rel, e.rel⟩ := by
  intro results
  induction results with
  | nil => intro acc z; simp
  | cons r rest ih =>
    intro acc z
    rw [List.foldl_cons, ih]
    cases r with
    | error u => simp [procStep]
    | ok e =>
      simp only [procStep]
      by_cases hf : e.isFile = true
      · by_cases hm :
          matchesFilters (fullPathStr config e.rel) (e.rel.getLastD "") config = true
        · simp only [hf, hm, Bool.not_true, Bool.false_eq_true, if_false,
            List.mem_append, List.mem_cons, List.not_mem_nil, or_false]
          constructor
          · rintro (⟨hz | hz⟩ | ⟨e', he', h1, h2, h3⟩)
            · exact Or.inl hz
            · exact Or.inr ⟨e, Or.inl rfl, hf, hm, hz⟩
            · exact Or.inr ⟨e', Or.inr he', h1, h2, h3⟩
          · rintro (hz | ⟨e', he' | he', h1, h2, h3⟩)
            · exact Or.inl (Or.inl hz)
            · have : e' = e := Except.ok.inj he'
              subst this
              exact Or.inl (Or.inr h3)
            · exact Or.inr ⟨e', he', h1, h2, h3⟩
        · simp only [hf, Bool.not_true, Bool.false_eq_true, if_false,
            eq_self_iff_true, if_true, hm, Bool.not_false, if_true,
            List.mem_cons]
          constructor
          · rintro (hz | ⟨e', he', h1, h2, h3⟩)
            · exact Or.inl hz
            · exact Or.inr ⟨e', Or.inr he', h1, h2, h3⟩
          · rintro (hz | ⟨e', he' | he', h1, h2, h3⟩)
            · exact Or.inl hz
            · have : e' = e := Except.ok.inj he'
              subst this
              exact absurd h2 hm
            · exact Or.inr ⟨e', he', h1, h2, h3⟩
      · simp only [Bool.not_eq_true] at hf
        simp only [hf, Bool.not_false, if_true, List.mem_cons]
        constructor
        · rintro (hz | ⟨e', he', h1, h2, h3⟩)
          · exact Or.inl hz
          · exact Or.inr ⟨e', Or.inr he', h1, h2, h3⟩
        · rintro (hz | ⟨e', he' | he', h1, h2, h3⟩)
          · exact Or.inl hz
          · have : e' = e := Except.ok.inj he'
            subst this
            rw [hf] at h1
            exact Bool.noConfusion h1
          · exact Or.inr ⟨e', he', h1, h2, h3⟩

lemma mem_scanFs {fuel : Nat} {root : Option (List FsEntry)}
    {config : ContextConfig} {ign : List String → Bool} {l : List FileNode}
    (h : scanFs fuel root config ign = Except.ok l) {r : FileNode} (hr : r ∈ l) :
    ∃ (entries : List FsEntry) (e : WalkItem), root = some entries ∧
      Except.ok e ∈ walkList config ign fuel entries [] 1 ∧ e.isFile = true ∧
      matchesFilters (fullPathStr config e.rel) (e.rel.getLastD "") config = true ∧
      r = ⟨fullPathStr config e.rel, e.rel⟩ := by
  cases root with
  | none =>
    have hl : l = [] := by
      simp only [scanFs, processResults, List.foldl_cons, List.foldl_nil,
        procStep, Except.ok.injEq] at h
      exact h.symm
    subst hl
    cases hr
  | some entries =>
    have hl : l = sortRecords
        ((Except.ok ⟨[], false⟩ :: walkList config ign fuel entries [] 1).foldl
          (procStep config) []) := by
      simp only [scanFs, processResults, Except.ok.injEq] at h
      exact h.symm
    subst hl
    rw [mem_sortRecords, mem_procFold] at hr
    rcases hr with hr | ⟨e, he, h1, h2, h3⟩
    · cases hr
    · rcases List.mem_cons.mp he with he' | he'
      · have : e = ⟨[], false⟩ := Except.ok.inj he'
        subst this
        exact Bool.noConfusion h1
      · exact ⟨entries, e, rfl, he', h1, h2, h3⟩

/-! ## Walk-stream lemmas -/

lemma walk_ok_shape (config : ContextConfig) (ign : List String → Bool) :
    ∀ (fuel : Nat) (es : List FsEntry) (rel : List String) (depth : Nat)
      (e : WalkItem),
      Except.ok e ∈ walkList config ign fuel es rel depth →
      ∃ suffix : List String, e.rel = rel ++ suffix ∧ suffix ≠ [] ∧
        (∀ c ∈ suffix.dropLast, c ∉ noiseDirs ∧ c ∉ noiseFiles) ∧
        (e.isFile = true → ∀ fn, suffix.getLast? = some fn → fn ∉ noiseFiles) := by
  intro fuel
  induction fuel with
  | zero => intro es rel depth e h; simp [walkList] at h
  | succ fuel ih =>
    intro es rel depth e h
    cases es with
    | nil => simp [walkList] at h
    | cons ent rest =>
      simp only [walkList] at h
      rcases List.mem_append.mp h with hh | ht
      · by_cases h1 : isNoise ent.name ent.isDir = true
        · rw [if_pos h1] at hh; cases hh
        · rw [if_neg h1] at hh
          by_cases h2 : (!config.include_hidden && startsWithDot ent.name) = true
          · rw [if_pos h2] at hh; cases hh
          · rw [if_neg h2] at hh
            by_cases h3 : (!config.no_ignore && ign (rel ++ [ent.name])) = true
            · rw [if_pos h3] at hh; cases hh
            · rw [if_neg h3] at hh
              by_cases h4 : depthPruned config depth = true
              · rw [if_pos h4] at hh; cases hh
              · rw [if_neg h4] at hh
                cases ent with
                | file n =>
                  simp only [List.mem_singleton] at hh
                  have he : e = ⟨rel ++ [n], true⟩ := Except.ok.inj hh
                  subst he
                  refine ⟨[n], rfl, by simp, by simp, ?_⟩
                  intro _ fn hfn
                  have : fn = n := (by simpa using hfn : n = fn).symm
                  subst this
                  intro hmem
                  apply h1
                  simp [isNoise, FsEntry.name, hmem]
                | bad n => simp at hh
                | dir n es' =>
                  have hnd : n ∉ noiseDirs ∧ n ∉ noiseFiles := by
                    constructor <;> intro hmem <;> apply h1 <;>
                      simp [isNoise, FsEntry.name, FsEntry.isDir, hmem]
                  rcases List.mem_cons.mp hh with hh' | hh'
                  · have he : e = ⟨rel ++ [n], false⟩ := Except.ok.inj hh'
                    subst he
                    exact ⟨[n], rfl, by simp, by simp, by intro hf; cases hf⟩
                  · rcases ih es' (rel ++ [n]) (depth + 1) e hh' with
                      ⟨suffix, hs, hne, hdl, hlast⟩
                    refine ⟨n :: suffix, ?_, by simp, ?_, ?_⟩
                    · rw [hs, List.append_cons, List.append_assoc]
                      simp
                    · intro c hc
                      rcases suffix with _ | ⟨s0, srest⟩
                      · exact absurd rfl hne
                      · rcases List.mem_cons.mp hc with rfl | hc'
                        · exact hnd
                        · exact hdl c hc'
                    · intro hf fn hfn
                      rcases suffix with _ | ⟨s0, srest⟩
                      · exact absurd rfl hne
                      · exact hlast hf fn hfn
      · exact ih rest rel depth e ht

/-! ## Properties of `matches_filters` -/

lemma band_not_true {a b : Bool} (h : ¬ (!a && b) = true) : a = true ∨ b = false := by
  cases a
  · cases b
    · exact Or.inr rfl
    · exact absurd rfl h
  · exact Or.inl rfl

lemma band_not_decide {a : Bool} {P : Prop} [Decidable P]
    (h : ¬ (!a && decide P) = true) : a = true ∨ ¬ P := by
  rcases band_not_true h with h' | h'
  · exact Or.inl h'
  · exact Or.inr (by simpa using h')

lemma matchesFilters_spec {pathStr fname : String} {config : ContextConfig}
    (h : matchesFilters pathStr fname config = true) :
    (∀ pat ∈ config.exclude_paths, strContains pathStr pat = false) ∧
    (config.include_paths ≠ [] →
      ∃ pat ∈ config.include_paths, strContains pathStr pat = true) ∧
    (lowerStr ⟨(rustExtension fname.data).getD []⟩ ∉ config.exclude_extensions) ∧
    (config.include_extensions ≠ [] →
      lowerStr ⟨(rustExtension fname.data).getD []⟩ ∈ config.include_extensions) := by
  unfold matchesFilters at h
  by_cases h1 : (!config.exclude_paths.isEmpty &&
      config.exclude_paths.any fun ex => strContains pathStr ex) = true
  · rw [if_pos h1] at h; cases h
  · rw [if_neg h1] at h
    by_cases h2 : (!config.include_paths.isEmpty &&
        !config.include_paths.any fun inc => strContains pathStr inc) = true
    · rw [if_pos h2] at h; cases h
    · rw [if_neg h2] at h
      by_cases h3 : (!config.exclude_extensions.isEmpty &&
          decide (lowerStr ⟨(rustExtension fname.data).getD []⟩ ∈
            config.exclude_extensions)) = true
      · rw [if_pos h3] at h; cases h
      · rw [if_neg h3] at h
        by_cases h4 : (!config.include_extensions.isEmpty &&
            decide (lowerStr ⟨(rustExtension fname.data).getD []⟩ ∉
              config.include_extensions)) = true
        · rw [if_pos h4] at h; cases h
        · refine ⟨?_, ?_, ?_, ?_⟩
          · intro pat hpat
            rcases band_not_true h1 with h1' | h1'
            · have : config.exclude_paths = [] := List.isEmpty_iff.mp h1'
              rw [this] at hpat
              cases hpat
            · exact Bool.not_eq_true _ ▸ List.any_eq_false.mp h1' pat hpat
          · intro hne
            rcases band_not_true h2 with h2' | h2'
            · exact absurd (List.isEmpty_iff.mp h2') hne
            · have : (config.include_paths.any
                  fun inc => strContains pathStr inc) = true := by
                revert h2'
                cases config.include_paths.any fun inc => strContains pathStr inc <;>
                  simp
              rcases List.any_eq_true.mp this with ⟨pat, hpat, hc⟩
              exact ⟨pat, hpat, hc⟩
          · intro hmem
            rcases band_not_decide h3 with h3' | h3'
            · have : config.exclude_extensions = [] := List.isEmpty_iff.mp h3'
              rw [this] at hmem
              cases hmem
            · exact h3' hmem
          · intro hne
            rcases band_not_decide h4 with h4' | h4'
            · exact absurd (List.isEmpty_iff.mp h4') hne
            · exact not_not.mp h4'

/-- Every successful scan result is the stable sort of the raw collected
records. -/
lemma scanFs_ok_eq {fuel : Nat} {root : Option (List FsEntry)}
    {config : ContextConfig} {ign : List String → Bool} {l : List FileNode}
    (h : scanFs fuel root config ign = Except.ok l) :
    ∃ raw, l = sortRecords raw := by
  cases root with
  | none => exact ⟨_, (Except.ok.inj h).symm⟩
  | some entries => exact ⟨_, (Except.ok.inj h).symm⟩

/-! ## Claim C2 -/

/-- Claim C2, counterexample: with a missing root the walk stream is a
single `Err`, yet `scan` returns `Ok []` — it does not return an error to
the caller, contradicting the claim that a missing root is propagated as
an error. -/
theorem C2_counterexample :
    scanFs 9 none ContextConfig.default (fun _ => false) = Except.ok [] ∧
    ∀ err : Unit,
      scanFs 9 none ContextConfig.default (fun _ => false) ≠ Except.error err := by
  refine ⟨rfl, ?_⟩
  intro err h
  rw [show scanFs 9 none ContextConfig.default (fun _ => false) = Except.ok []
    from rfl] at h
  exact Except.noConfusion h

/-- Claim C2 (amended): `scan` never returns an error.  A missing or
wholly unreadable root (the single `Err` stream) yields `Ok` with the
empty list, and any other single-entry traversal failure is skipped while
the scan returns `Ok` with the surviving entries. -/
theorem C2_scan_never_errors (fuel : Nat) (root : Option (List FsEntry))
    (config : ContextConfig) (ign : List String → Bool) :
    (∃ files, scanFs fuel root config ign = Except.ok files) ∧
    (root = none → scanFs fuel root config ign = Except.ok []) := by
  constructor
  · cases root with
    | none => exact ⟨_, rfl⟩
    | some entries => exact ⟨_, rfl⟩
  · rintro rfl
    rfl

/-- Witness for C2: the amended theorem applied at a concrete missing
root. -/
theorem C2_witness :
    scanFs 3 none ContextConfig.default (fun _ => false) = Except.ok [] :=
  (C2_scan_never_errors 3 none ContextConfig.default (fun _ => false)).2 rfl

/-! ## Claim C3 -/

/-- Claim C3, counterexample: scanning a root holding directory `a`
(containing file `b`) and file `a.txt` emits the records in the order
`a/b`, `a.txt` — the component-wise `PathBuf` order — but in byte-wise
order of the path strings `a.txt` precedes `a/b` (`.` = 0x2E sorts below
`/` = 0x2F), so the output is not sorted by byte-wise comparison of the
relative path strings. -/
theorem C3_counterexample :
    scanFs 9 (some [.dir "a" [.file "b"], .file "a.txt"]) ContextConfig.default
        (fun _ => false) =
      Except.ok [⟨"./a/b", ["a", "b"]⟩, ⟨"./a.txt", ["a.txt"]⟩] ∧
    byteStrLe (pathString ["a", "b"]) (pathString ["a.txt"]) = false :=
  ⟨rfl, rfl⟩

/-- Claim C3 (amended): for every filesystem state and configuration the
records returned by `scan` are sorted by relative path under the
component-wise `PathBuf` order (components compared byte-wise); this
differs from byte-wise comparison of the whole path string when a name
contains a byte below the separator. -/
theorem C3_scan_sorted (fuel : Nat) (root : Option (List FsEntry))
    (config : ContextConfig) (ign : List String → Bool) (l : List FileNode)
    (h : scanFs fuel root config ign = Except.ok l) :
    l.Pairwise (fun a b => pathLe a.relative_path b.relative_path = true) := by
  rcases scanFs_ok_eq h with ⟨raw, rfl⟩
  exact sortRecords_pairwise raw

/-- Witness for C3: the sortedness theorem applied at a concrete scan. -/
theorem C3_witness :
    ([⟨"./a/b", ["a", "b"]⟩, ⟨"./a.txt", ["a.txt"]⟩] : List FileNode).Pairwise
      (fun a b => pathLe a.relative_path b.relative_path = true) :=
  C3_scan_sorted 9 (some [.dir "a" [.file "b"], .file "a.txt"])
    ContextConfig.default (fun _ => false) _ rfl

/-! ## Claim C5 -/

/-- Claim C5, counterexample: with root path `proj` and exclude pattern
`proj`, the file `a.txt` is excluded from the scan although its relative
path contains no exclude pattern — the substring filters are evaluated
against the root-joined full path (`proj/a.txt`), not against the
relative path as the claim states. -/
theorem C5_counterexample :
    scanFs 9 (some [.file "a.txt"])
        { ContextConfig.default with root_path := "proj", exclude_paths := ["proj"] }
        (fun _ => false) = Except.ok [] ∧
    strContains (pathString ["a.txt"]) "proj" = false :=
  ⟨rfl, rfl⟩

/-- Claim C5 (amended): the path substring filters are evaluated against
the string form of the **full, root-joined** path.  Every emitted record
matches no exclude pattern (so a path matching both an exclude and an
include pattern is always excluded — the exclude veto is checked first),
and when include patterns are configured it matches at least one. -/
theorem C5_path_filters (fuel : Nat) (root : Option (List FsEntry))
    (config : ContextConfig) (ign : List String → Bool) (l : List FileNode)
    (r : FileNode) (h : scanFs fuel root config ign = Except.ok l)
    (hr : r ∈ l) :
    r.path = fullPathStr config r.relative_path ∧
    (∀ pat ∈ config.exclude_paths,
      strContains (fullPathStr config r.relative_path) pat = false) ∧
    (config.include_paths ≠ [] →
      ∃ pat ∈ config.include_paths,
        strContains (fullPathStr config r.relative_path) pat = true) := by
  rcases mem_scanFs h hr with ⟨entries, e, -, -, -, hm, rfl⟩
  have hs := matchesFilters_spec hm
  exact ⟨rfl, hs.1, hs.2.1⟩

/-- Witness for C5: the amended theorem applied at a concrete scan with
both an include and an exclude pattern configured. -/
theorem C5_witness :
    (⟨"r/a.txt", ["a.txt"]⟩ : FileNode).path =
      fullPathStr
        { ContextConfig.default with
            root_path := "r", include_paths := ["a"], exclude_paths := ["zz"] }
        ["a.txt"] ∧
    (∀ pat ∈ ({ ContextConfig.default with
        root_path := "r", include_paths := ["a"],
        exclude_paths := ["zz"] } : ContextConfig).exclude_paths,
      strContains
        (fullPathStr
          { ContextConfig.default with
              root_path := "r", include_paths := ["a"], exclude_paths := ["zz"] }
          ["a.txt"]) pat = false) ∧
    (({ ContextConfig.default with
        root_path := "r", include_paths := ["a"],
        exclude_paths := ["zz"] } : ContextConfig).include_paths ≠ [] →
      ∃ pat ∈ ({ ContextConfig.default with
          root_path := "r", include_paths := ["a"],
          exclude_paths := ["zz"] } : ContextConfig).include_paths,
        strContains
          (fullPathStr
            { ContextConfig.default with
                root_path := "r", include_paths := ["a"], exclude_paths := ["zz"] }
            ["a.txt"]) pat = true) :=
  C5_path_filters 9 (some [.file "a.txt"])
    { ContextConfig.default with
        root_path := "r", include_paths := ["a"], exclude_paths := ["zz"] }
    (fun _ => false) [⟨"r/a.txt", ["a.txt"]⟩] ⟨"r/a.txt", ["a.txt"]⟩
    rfl (List.Mem.head _)

/-! ## Claim C8 -/

/-- Claim C8 (confirmed): under every configuration and every ignore
predicate, no emitted record's file name is on the hardcoded noise-file
list, and no component of its containing directory path (below the root)
is on the hardcoded noise-directory list: the noise veto prunes the whole
subtree and no setting can override it. -/
theorem C8_noise_veto (fuel : Nat) (root : Option (List FsEntry))
    (config : ContextConfig) (ign : List String → Bool) (l : List FileNode)
    (r : FileNode) (h : scanFs fuel root config ign = Except.ok l)
    (hr : r ∈ l) :
    (∀ fn, r.relative_path.getLast? = some fn → fn ∉ noiseFiles) ∧
    (∀ c ∈ r.relative_path.dropLast, c ∉ noiseDirs) := by
  rcases mem_scanFs h hr with ⟨entries, e, -, hw, hf, -, rfl⟩
  rcases walk_ok_shape config ign fuel entries [] 1 e hw with
    ⟨suffix, hs, -, hdl, hlast⟩
  rw [List.nil_append] at hs
  constructor
  · intro fn hfn
    apply hlast hf fn
    rw [← hs]
    exact hfn
  · intro c hc
    apply (hdl c ?_).1
    rw [← hs]
    exact hc

/-- Witness for C8: the theorem applied at a concrete scan whose root
holds a noise directory next to an ordinary file, with hidden files and
ignore bypass switched on so no other layer is responsible for the
pruning. -/
theorem C8_witness :
    (∀ fn, (["ok.rs"] : List String).getLast? = some fn → fn ∉ noiseFiles) ∧
    (∀ c ∈ (["ok.rs"] : List String).dropLast, c ∉ noiseDirs) :=
  C8_noise_veto 9 (some [.dir "node_modules" [.file "x.rs"], .file "ok.rs"])
    { ContextConfig.default with include_hidden := true, no_ignore := true }
    (fun _ => false) [⟨"./ok.rs", ["ok.rs"]⟩] ⟨"./ok.rs", ["ok.rs"]⟩
    rfl (List.Mem.head _)

/-! ## Claim C10 -/

/-- Claim C10 (confirmed): a regular file whose name has no extension is
treated as having the empty-string extension — if such a file is emitted,
then the empty string is not in `exclude_extensions`, and whenever
`include_extensions` is non-empty the empty string is a member.
Contrapositively: an exclude set containing `""` excludes every
extensionless file, and a non-empty include set without `""` excludes
every extensionless file. -/
theorem C10_extensionless (fuel : Nat) (root : Option (List FsEntry))
    (config : ContextConfig) (ign : List String → Bool) (l : List FileNode)
    (r : FileNode) (h : scanFs fuel root config ign = Except.ok l)
    (hr : r ∈ l)
    (hext : rustExtension ((r.relative_path.getLastD "").data) = none) :
    ("" ∉ config.exclude_extensions) ∧
    (config.include_extensions ≠ [] → "" ∈ config.include_extensions) := by
  rcases mem_scanFs h hr with ⟨entries, e, -, -, -, hm, rfl⟩
  have hs := matchesFilters_spec hm
  have hE : lowerStr ⟨(rustExtension ((e.rel.getLastD "").data)).getD []⟩ = "" := by
    have : rustExtension ((e.rel.getLastD "").data) = none := hext
    rw [this]
    rfl
  rw [hE] at hs
  exact ⟨hs.2.2.1, hs.2.2.2⟩

/-- Witness for C10: the theorem applied at a concrete scan of an
extensionless file under `include_extensions = [""]`. -/
theorem C10_witness :
    ("" ∉ ({ ContextConfig.default with
        include_extensions := [""] } : ContextConfig).exclude_extensions) ∧
    (({ ContextConfig.default with
        include_extensions := [""] } : ContextConfig).include_extensions ≠ [] →
      "" ∈ ({ ContextConfig.default with
        include_extensions := [""] } : ContextConfig).include_extensions) :=
  C10_extensionless 9 (some [.file "Makefile"])
    { ContextConfig.default with include_extensions := [""] }
    (fun _ => false) [⟨"./Makefile", ["Makefile"]⟩] ⟨"./Makefile", ["Makefile"]⟩
    rfl (List.Mem.head _) rfl

/-! ## Claim C1 -/

lemma selectedPaths_set_expanded :
    ∀ (ns : List UiNode) (idx : Nat) (n : UiNode) (e : Bool),
      ns.get? idx = some n →
      ((ns.set idx { n with expanded := e }).filter
        (fun m => m.selected && !m.is_dir)).map (fun m => m.path) =
      (ns.filter (fun m => m.selected && !m.is_dir)).map (fun m => m.path) := by
  intro ns
  induction ns with
  | nil => intro idx n e h; cases h
  | cons hd tl ih =>
    intro idx n e h
    cases idx with
    | zero =>
      have hn : hd = n := by simpa using h
      subst hn
      simp only [List.set_cons_zero, List.filter_cons]
      cases hc : hd.selected && !hd.is_dir <;> simp [hc]
    | succ idx' =>
      have h' : tl.get? idx' = some n := by simpa using h
      simp only [List.set_cons_succ, List.filter_cons]
      cases hc : hd.selected && !hd.is_dir <;> simp [hc, ih idx' n e h']

/-- Claim C1, counterexample: built from the single record with absolute
path `/r/a.txt` and relative path `a.txt`, the app's selected-paths query
returns the relative path key `a.txt`; the absolute path of the sole
selected file record is `/r/a.txt`, which is not what is returned — the
query does not return absolute paths (the builder ignores its root-path
argument). -/
theorem C1_counterexample :
    getSelectedPaths (AppNew [⟨"/r/a.txt", ["a.txt"]⟩] ["/r"]) = [["a.txt"]] ∧
    pathString ["a.txt"] ≠ "/r/a.txt" :=
  ⟨rfl, by decide⟩

/-- Claim C1 (amended): `get_selected_paths` returns exactly the set of
node path keys — relative paths, not absolute paths — of the nodes with
`is_dir = false` and `selected = true`, scanning the full arena; the
result is unchanged by `toggle_expand`, by a view recomputation and by
cursor movement, hence independent of the expand/view state. -/
theorem C1_selected_paths (a : App) :
    (∀ p, p ∈ getSelectedPaths a ↔
      ∃ n ∈ a.nodes, n.selected = true ∧ n.is_dir = false ∧ n.path = p) ∧
    getSelectedPaths (toggleExpand a) = getSelectedPaths a ∧
    getSelectedPaths (updateView a) = getSelectedPaths a ∧
    getSelectedPaths (moveUp a) = getSelectedPaths a := by
  refine ⟨?_, ?_, rfl, rfl⟩
  · intro p
    simp only [getSelectedPaths, List.mem_map, List.mem_filter,
      Bool.and_eq_true, Bool.not_eq_true']
    constructor
    · rintro ⟨n, ⟨hn, hsel, hdir⟩, hp⟩
      exact ⟨n, hn, hsel, hdir, hp⟩
    · rintro ⟨n, hn, hsel, hdir, hp⟩
      exact ⟨n, ⟨hn, hsel, hdir⟩, hp⟩
  · unfold toggleExpand
    cases hls : a.list_state with
    | none => rfl
    | some si =>
      cases hv : a.view_items.get? si with
      | none => simp only [hv]
      | some ni =>
        cases hn : a.nodes.get? ni with
        | none => simp only [hv, hn]
        | some n =>
          by_cases hd : n.is_dir = true
          · simp only [hv, hn, if_pos hd]
            exact selectedPaths_set_expanded a.nodes ni n (!n.expanded) hn
          · simp only [hv, hn, if_neg hd]

/-! ## Claim C9 -/

/-- Claim C9, counterexample: starting from the app built from an empty
scan (empty view, no selection), one `move_down` sets the cursor to
`Some 0` — an index outside the empty view — and a second `move_down`
evaluates `view_items.len() - 1` with `len = 0`, an unsigned underflow
that panics in a debug build (modelled as `none`).  So `move_down` can
panic, and the cursor is not kept clamped, on the empty view. -/
theorem C9_counterexample :
    (moveDown (AppNew [] [])).map (fun b => b.list_state) = some (some 0) ∧
    (moveDown (AppNew [] [])).bind moveDown = none :=
  ⟨rfl, rfl⟩

/-- Claim C9 (amended): with no selection or an out-of-bounds cursor,
`toggle_selection` and `toggle_expand` leave the state unchanged (and do
not panic); `move_up` never panics and clamps at the lower bound; on a
non-empty view with a valid cursor `move_down` succeeds and clamps at the
upper bound, with no wraparound on either side.  Only on an empty view
with an existing selection can `move_down` panic (see the
counterexample). -/
theorem C9_cursor_safety (a : App) :
    (a.list_state = none → toggleSelection a = a ∧ toggleExpand a = a) ∧
    (∀ i, a.list_state = some i → a.view_items.length ≤ i →
      toggleSelection a = a ∧ toggleExpand a = a) ∧
    (∀ i, a.list_state = some i →
      moveUp a = { a with list_state := some (i - 1) }) ∧
    (a.list_state = none → moveUp a = { a with list_state := some 0 }) ∧
    (∀ i, a.list_state = some i → i < a.view_items.length →
      moveDown a =
        some { a with
               list_state := some (min (i + 1) (a.view_items.length - 1)) } ∧
      min (i + 1) (a.view_items.length - 1) < a.view_items.length) ∧
    (a.list_state = none → moveDown a = some { a with list_state := some 0 }) := by
  refine ⟨?_, ?_, ?_, ?_, ?_, ?_⟩
  · intro h
    constructor
    · unfold toggleSelection
      rw [h]
    · unfold toggleExpand
      rw [h]
  · intro i h hib
    have hv : a.view_items.get? i = none := by
      rw [List.get?_eq_getElem?]
      exact List.getElem?_eq_none hib
    constructor
    · unfold toggleSelection
      rw [h]
      simp only [hv]
    · unfold toggleExpand
      rw [h]
      simp only [hv]
  · intro i h
    unfold moveUp
    rw [h]
    cases i with
    | zero => rfl
    | succ i' => simp
  · intro h
    unfold moveUp
    rw [h]
  · intro i h hib
    unfold moveDown
    rw [h]
    cases hL : a.view_items.length with
    | zero => rw [hL] at hib; exact absurd hib (by omega)
    | succ L =>
      rw [hL] at hib
      constructor
      · simp only [hL]
        by_cases hLe : L ≤ i
        · rw [if_pos hLe, show min (i + 1) (L + 1 - 1) = L from by omega]
        · rw [if_neg hLe, show min (i + 1) (L + 1 - 1) = i + 1 from by omega]
      · omega
  · intro h
    unfold moveDown
    rw [h]

/-- Witness for C9: the amended theorem applied at the one-file app with
the cursor at index 0 of its one-element view. -/
theorem C9_witness :
    moveDown (AppNew [⟨"/r/a.txt", ["a.txt"]⟩] []) =
      some { AppNew [⟨"/r/a.txt", ["a.txt"]⟩] [] with
             list_state := some (min (0 + 1)
               ((AppNew [⟨"/r/a.txt", ["a.txt"]⟩] []).view_items.length - 1)) } ∧
    min (0 + 1) ((AppNew [⟨"/r/a.txt", ["a.txt"]⟩] []).view_items.length - 1) <
      (AppNew [⟨"/r/a.txt", ["a.txt"]⟩] []).view_items.length :=
  (C9_cursor_safety (AppNew [⟨"/r/a.txt", ["a.txt"]⟩] [])).2.2.2.2.1 0 rfl
    (by decide)

/-! ## Forest and reachability lemmas -/

lemma childs_of_ge {ns : List UiNode} {i : Nat} (h : ns.length ≤ i) :
    childs ns i = [] := by
  unfold childs
  rw [List.get?_eq_getElem?, List.getElem?_eq_none h]

lemma mem_childs_lt {ns : List UiNode} {p j : Nat} (h : j ∈ childs ns p) :
    p < ns.length := by
  by_contra hp
  rw [childs_of_ge (Nat.le_of_not_lt hp)] at h
  cases h

lemma wf_asc {ns : List UiNode} {roots : List Nat} (h : ForestWF ns roots) :
    ∀ i j, j ∈ childs ns i → i < j ∧ j < ns.length := by
  intro i j hj
  exact h.1 i (mem_childs_lt hj) j hj

lemma wf_childNodup {ns : List UiNode} {roots : List Nat} (h : ForestWF ns roots) :
    ∀ i, (childs ns i).Nodup := by
  intro i
  by_cases hi : i < ns.length
  · exact h.2.1 i hi
  · rw [childs_of_ge (Nat.le_of_not_lt hi)]
    exact List.nodup_nil

lemma wf_uniqPar {ns : List UiNode} {roots : List Nat} (h : ForestWF ns roots) :
    ∀ p q j, j ∈ childs ns p → j ∈ childs ns q → p = q := by
  intro p q j hp hq
  exact h.2.2.1 p (mem_childs_lt hp) q (mem_childs_lt hq) j hp hq

lemma wf_rootsNotChild {ns : List UiNode} {roots : List Nat}
    (h : ForestWF ns roots) : ∀ r ∈ roots, ∀ p, r ∉ childs ns p := by
  intro r hr p hmem
  exact h.2.2.2.2.2 r hr p (mem_childs_lt hmem) hmem

lemma reach_le {ns : List UiNode} {roots : List Nat} (h : ForestWF ns roots)
    {i m : Nat} (hr : Reach ns i m) : i ≤ m := by
  induction hr with
  | refl => exact Nat.le_refl _
  | step hij hm ih =>
    have := (wf_asc h _ _ hm).1
    omega

lemma reach_prepend {ns : List UiNode} {c i m : Nat} (hc : c ∈ childs ns i)
    (h : Reach ns c m) : Reach ns i m := by
  induction h with
  | refl => exact Reach.step (Reach.refl i) hc
  | step hcj hm ih => exact Reach.step ih hm

lemma reach_head {ns : List UiNode} {i m : Nat} (h : Reach ns i m) :
    i = m ∨ ∃ c ∈ childs ns i, Reach ns c m := by
  induction h with
  | refl => exact Or.inl rfl
  | step hij hm ih =>
    rcases ih with rfl | ⟨c, hc, hcj⟩
    · exact Or.inr ⟨_, hm, Reach.refl _⟩
    · exact Or.inr ⟨c, hc, Reach.step hcj hm⟩

lemma reach_parent {ns : List UiNode} {i m : Nat} (h : Reach ns i m)
    (hne : i ≠ m) : ∃ p, Reach ns i p ∧ m ∈ childs ns p := by
  cases h with
  | refl => exact absurd rfl hne
  | step hij hm => exact ⟨_, hij, hm⟩

lemma reach_of_childs_nil {ns : List UiNode} {i m : Nat}
    (hc : childs ns i = []) (h : Reach ns i m) : m = i := by
  induction h with
  | refl => rfl
  | step hij hm ih =>
    subst ih
    rw [hc] at hm
    cases hm

lemma reach_comparable {ns : List UiNode} {roots : List Nat}
    (wf : ForestWF ns roots) {a b m : Nat} (h1 : Reach ns a m)
    (h2 : Reach ns b m) : Reach ns a b ∨ Reach ns b a := by
  revert h1
  induction h2 with
  | refl => intro h1; exact Or.inl h1
  | step hbj hm ih =>
    rename_i jj mm
    intro h1
    by_cases ham : a = mm
    · subst ham
      exact Or.inr (Reach.step hbj hm)
    · rcases reach_parent h1 ham with ⟨p, hap, hmp⟩
      have hpj : p = jj := wf_uniqPar wf p jj mm hmp hm
      subst hpj
      exact ih hap

lemma sibling_reach_disjoint {ns : List UiNode} {roots : List Nat}
    (wf : ForestWF ns roots) {i c1 c2 m : Nat} (h1 : c1 ∈ childs ns i)
    (h2 : c2 ∈ childs ns i) (hne : c1 ≠ c2) (r1 : Reach ns c1 m)
    (r2 : Reach ns c2 m) : False := by
  have key : ∀ x y : Nat, x ∈ childs ns i → y ∈ childs ns i → x ≠ y →
      Reach ns x y → False := by
    intro x y hx hy hxy hr
    rcases reach_parent hr hxy with ⟨p, hxp, hyp⟩
    have : p = i := wf_uniqPar wf p i y hyp hy
    subst this
    have hle : x ≤ p := reach_le wf hxp
    have hlt : p < x := (wf_asc wf _ _ hx).1
    omega
  rcases reach_comparable wf r1 r2 with hc | hc
  · exact key c1 c2 h1 h2 hne hc
  · exact key c2 c1 h2 h1 (Ne.symm hne) hc

lemma root_reach_disjoint {ns : List UiNode} {roots : List Nat}
    (wf : ForestWF ns roots) {r1 r2 m : Nat} (h1 : r1 ∈ roots)
    (h2 : r2 ∈ roots) (hne : r1 ≠ r2) (hr1 : Reach ns r1 m)
    (hr2 : Reach ns r2 m) : False := by
  have key : ∀ x y : Nat, y ∈ roots → x ≠ y → Reach ns x y → False := by
    intro x y hy hxy hr
    rcases reach_parent hr hxy with ⟨p, _, hyp⟩
    exact wf_rootsNotChild wf y hy p hyp
  rcases reach_comparable wf hr1 hr2 with hc | hc
  · exact key r1 r2 h2 hne hc
  · exact key r2 r1 h1 (Ne.symm hne) hc

/-! ## View-projection lemmas -/

lemma mem_visOne_reach {ns : List UiNode} :
    ∀ (fuel i m : Nat), m ∈ visOne ns fuel i → Reach ns i m := by
  intro fuel
  induction fuel with
  | zero =>
    intro i m h
    have : m = i := by simpa [visOne] using h
    subst this
    exact Reach.refl _
  | succ fuel ih =>
    intro i m h
    simp only [visOne] at h
    rcases List.mem_cons.mp h with rfl | hx
    · exact Reach.refl _
    · split at hx
      next n hg =>
        split at hx
        next hguard =>
          rcases List.mem_flatten.mp hx with ⟨l, hl, hml⟩
          rcases List.mem_map.mp hl with ⟨c, hc, rfl⟩
          have hcc : c ∈ childs ns i := by
            unfold childs
            rw [hg]
            exact hc
          exact reach_prepend hcc (ih c m hml)
        next hguard => cases hx
      next hg => cases hx

lemma visOne_nodup {ns : List UiNode} {roots : List Nat}
    (wf : ForestWF ns roots) : ∀ (fuel i : Nat), (visOne ns fuel i).Nodup := by
  intro fuel
  induction fuel with
  | zero => intro i; simp [visOne]
  | succ fuel ih =>
    intro i
    simp only [visOne]
    refine List.Pairwise.cons ?_ ?_
    · intro m hm
      split at hm
      next n hg =>
        split at hm
        next hguard =>
          rcases List.mem_flatten.mp hm with ⟨l, hl, hml⟩
          rcases List.mem_map.mp hl with ⟨c, hc, rfl⟩
          have hcc : c ∈ childs ns i := by
            unfold childs
            rw [hg]
            exact hc
          have h1 : c ≤ m := reach_le wf (mem_visOne_reach fuel c m hml)
          have h2 : i < c := (wf_asc wf _ _ hcc).1
          omega
        next hguard => cases hm
      next hg => cases hm
    · split
      next n hg =>
        split
        next hguard =>
          show ((List.map (visOne ns fuel) n.children).flatten).Nodup
          rw [List.nodup_flatten]
          constructor
          · intro l hl
            rcases List.mem_map.mp hl with ⟨c, _, rfl⟩
            exact ih c
          · rw [List.pairwise_map]
            have hcn : (childs ns i).Nodup := wf_childNodup wf i
            have hcn' : n.children.Nodup := by
              unfold childs at hcn
              rw [hg] at hcn
              exact hcn
            refine List.Pairwise.imp_of_mem ?_ hcn'
            intro c1 c2 hc1 hc2 hne
            intro m hm1 hm2
            have hcc1 : c1 ∈ childs ns i := by unfold childs; rw [hg]; exact hc1
            have hcc2 : c2 ∈ childs ns i := by unfold childs; rw [hg]; exact hc2
            exact sibling_reach_disjoint wf hcc1 hcc2 hne
              (mem_visOne_reach fuel c1 m hm1) (mem_visOne_reach fuel c2 m hm2)
        next hguard => simp
      next hg => simp

lemma computeView_nodup {ns : List UiNode} {roots : List Nat}
    (wf : ForestWF ns roots) : (computeView ns roots).Nodup := by
  unfold computeView
  rw [List.nodup_flatten]
  constructor
  · intro l hl
    rcases List.mem_map.mp hl with ⟨r, _, rfl⟩
    exact visOne_nodup wf _ r
  · rw [List.pairwise_map]
    refine List.Pairwise.imp_of_mem ?_ wf.2.2.2.1
    intro r1 r2 hr1 hr2 hne
    intro m hm1 hm2
    exact root_reach_disjoint wf hr1 hr2 hne
      (mem_visOne_reach _ r1 m hm1) (mem_visOne_reach _ r2 m hm2)

lemma visOne_head {ns : List UiNode} :
    ∀ (fuel i : Nat), ∃ t, visOne ns fuel i = i :: t := by
  intro fuel i
  cases fuel with
  | zero => exact ⟨[], rfl⟩
  | succ fuel => exact ⟨_, rfl⟩

lemma visOne_succ_some {ns : List UiNode} {fuel i : Nat} {n : UiNode}
    (hg : ns.get? i = some n) :
    visOne ns (fuel + 1) i = i :: (if (n.is_dir && n.expanded) = true then
      ((n.children.map (visOne ns fuel)).flatten) else []) := by
  simp only [visOne, hg]

lemma visOne_succ_none {ns : List UiNode} {fuel i : Nat}
    (hg : ns.get? i = none) : visOne ns (fuel + 1) i = [i] := by
  simp only [visOne, hg]

/-- A subtree traversal that never visits node `d` is unchanged when node
`d` is replaced. -/
lemma visOne_set_not_mem {ns : List UiNode} {d : Nat} {x : UiNode} :
    ∀ (fuel i : Nat), d ∉ visOne ns fuel i →
      visOne (ns.set d x) fuel i = visOne ns fuel i := by
  intro fuel
  induction fuel with
  | zero => intro i _; rfl
  | succ fuel ih =>
    intro i h
    have hid : i ≠ d := by
      intro he
      exact h (by rw [he]; simp [visOne])
    have hget : (ns.set d x).get? i = ns.get? i := by
      rw [List.get?_eq_getElem?, List.get?_eq_getElem?,
        List.getElem?_set_ne (fun hdi => hid hdi.symm)]
    cases hg : ns.get? i with
    | none =>
      rw [visOne_succ_none (hget.trans hg), visOne_succ_none hg]
    | some n =>
      rw [visOne_succ_some hg] at h
      rw [visOne_succ_some (hget.trans hg), visOne_succ_some hg]
      by_cases hguard : (n.is_dir && n.expanded) = true
      · rw [if_pos hguard, if_pos hguard]
        rw [if_pos hguard] at h
        congr 2
        apply List.map_congr_left
        intro c hc
        apply ih
        intro hdc
        apply h
        apply List.mem_cons_of_mem
        exact List.mem_flatten.mpr ⟨_, List.mem_map_of_mem _ hc, hdc⟩
      · rw [if_neg hguard, if_neg hguard]

/-- The split lemma: when `d` occurs in the concatenated traversal of a
worklist, both the original traversal and the traversal after replacing
node `d` decompose as a common prefix (not containing `d`), then `d`,
then arbitrary tails.  Replacing a node changes nothing before its first
visit. -/
lemma vis_split {ns : List UiNode} {d : Nat} {x : UiNode} :
    ∀ (fuel : Nat) (cs : List Nat),
      d ∈ (cs.map (visOne ns fuel)).flatten →
      ∃ P S S', (cs.map (visOne ns fuel)).flatten = P ++ d :: S ∧
        (cs.map (visOne (ns.set d x) fuel)).flatten = P ++ d :: S' ∧
        d ∉ P := by
  intro fuel
  induction fuel with
  | zero =>
    intro cs
    induction cs with
    | nil => intro h; simp at h
    | cons c cs' ihc =>
      intro h
      rw [List.map_cons, List.flatten_cons] at h
      by_cases hcd : c = d
      · subst hcd
        exact ⟨[], (cs'.map (visOne ns 0)).flatten,
          (cs'.map (visOne (ns.set c x) 0)).flatten,
          by simp [visOne], by simp [visOne], by simp⟩
      · have hd' : d ∈ (cs'.map (visOne ns 0)).flatten := by
          rcases List.mem_append.mp h with h' | h'
          · have : d = c := by simpa [visOne] using h'
            exact absurd this.symm hcd
          · exact h'
        rcases ihc hd' with ⟨P, S, S', e1, e2, hP⟩
        refine ⟨c :: P, S, S', ?_, ?_, ?_⟩
        · rw [List.map_cons, List.flatten_cons, e1]
          rfl
        · rw [List.map_cons, List.flatten_cons, e2]
          rfl
        · intro hmem
          rcases List.mem_cons.mp hmem with h' | h'
          · exact hcd h'.symm
          · exact hP h'
  | succ fuel ihf =>
    intro cs
    induction cs with
    | nil => intro h; simp at h
    | cons c cs' ihc =>
      intro h
      rw [List.map_cons, List.flatten_cons] at h
      by_cases hdc : d ∈ visOne ns (fuel + 1) c
      · by_cases hcd : c = d
        · subst hcd
          rcases @visOne_head ns (fuel + 1) c with ⟨t1, h1⟩
          rcases @visOne_head (ns.set c x) (fuel + 1) c with ⟨t2, h2⟩
          refine ⟨[], t1 ++ (cs'.map (visOne ns (fuel + 1))).flatten,
            t2 ++ (cs'.map (visOne (ns.set c x) (fuel + 1))).flatten,
            ?_, ?_, by simp⟩
          · rw [List.map_cons, List.flatten_cons, h1]
            rfl
          · rw [List.map_cons, List.flatten_cons, h2]
            rfl
        · have hne : c ≠ d := hcd
          cases hg : ns.get? c with
          | none =>
            rw [visOne_succ_none hg] at hdc
            exact absurd (List.mem_singleton.mp hdc).symm hcd
          | some n =>
            rw [visOne_succ_some hg] at hdc
            have hbody : d ∈ (if (n.is_dir && n.expanded) = true then
                ((n.children.map (visOne ns fuel)).flatten) else []) := by
              rcases List.mem_cons.mp hdc with h' | h'
              · exact absurd h'.symm hcd
              · exact h'
            by_cases hguard : (n.is_dir && n.expanded) = true
            · rw [if_pos hguard] at hbody
              rcases ihf n.children hbody with ⟨Pb, Sb, Sb', eb1, eb2, hPb⟩
              have hget : (ns.set d x).get? c = ns.get? c := by
                rw [List.get?_eq_getElem?, List.get?_eq_getElem?,
                  List.getElem?_set_ne (fun hdi => hne hdi.symm)]
              have hv1 : visOne ns (fuel + 1) c = c :: (Pb ++ d :: Sb) := by
                rw [visOne_succ_some hg, if_pos hguard, eb1]
              have hv2 : visOne (ns.set d x) (fuel + 1) c =
                  c :: (Pb ++ d :: Sb') := by
                rw [visOne_succ_some (hget.trans hg), if_pos hguard, eb2]
              refine ⟨c :: Pb, Sb ++ (cs'.map (visOne ns (fuel + 1))).flatten,
                Sb' ++ (cs'.map (visOne (ns.set d x) (fuel + 1))).flatten,
                ?_, ?_, ?_⟩
              · rw [List.map_cons, List.flatten_cons, hv1]
                simp
              · rw [List.map_cons, List.flatten_cons, hv2]
                simp
              · intro hmem
                rcases List.mem_cons.mp hmem with h' | h'
                · exact hne h'.symm
                · exact hPb h'
            · rw [if_neg hguard] at hbody
              cases hbody
      · have hd' : d ∈ (cs'.map (visOne ns (fuel + 1))).flatten := by
          rcases List.mem_append.mp h with h' | h'
          · exact absurd h' hdc
          · exact h'
        rcases ihc hd' with ⟨P, S, S', e1, e2, hP⟩
        refine ⟨visOne ns (fuel + 1) c ++ P, S, S', ?_, ?_, ?_⟩
        · rw [List.map_cons, List.flatten_cons, e1, List.append_assoc]
        · rw [List.map_cons, List.flatten_cons,
            visOne_set_not_mem (fuel + 1) c hdc, e2, List.append_assoc]
        · intro hmem
          rcases List.mem_append.mp hmem with h' | h'
          · exact hdc h'
          · exact hP h'

/-- `computeView`-level split: replacing one node leaves the view
unchanged up to and including the first visit of that node. -/
lemma computeView_split {ns : List UiNode} {roots : List Nat} {d : Nat}
    {x : UiNode} (h : d ∈ computeView ns roots) :
    ∃ P S S', computeView ns roots = P ++ d :: S ∧
      computeView (ns.set d x) roots = P ++ d :: S' ∧ d ∉ P := by
  unfold computeView at h ⊢
  rw [List.length_set]
  exact vis_split ns.length roots h

lemma get?_some_lt {ns : List UiNode} {d : Nat} {nd : UiNode}
    (hn : ns.get? d = some nd) : d < ns.length := by
  by_contra h
  rw [List.get?_eq_getElem?, List.getElem?_eq_none (Nat.le_of_not_lt h)] at hn
  cases hn

lemma childs_set_same {ns : List UiNode} {d : Nat} {nd x : UiNode}
    (hn : ns.get? d = some nd) (hxc : x.children = nd.children) :
    ∀ p, childs (ns.set d x) p = childs ns p := by
  intro p
  unfold childs
  by_cases hp : p = d
  · subst hp
    rw [List.get?_eq_getElem?, List.get?_eq_getElem?,
      List.getElem?_set_self (get?_some_lt hn)]
    rw [List.get?_eq_getElem?] at hn
    rw [hn]
    exact hxc
  · rw [List.get?_eq_getElem?, List.get?_eq_getElem?,
      List.getElem?_set_ne (fun h => hp h.symm)]

lemma reach_congr {ns ns' : List UiNode}
    (h : ∀ p, childs ns' p = childs ns p) {i m : Nat} :
    Reach ns' i m → Reach ns i m := by
  intro hr
  induction hr with
  | refl => exact Reach.refl _
  | step hij hm ih => exact Reach.step ih (h _ ▸ hm)

/-- Inside the view produced after collapsing node `d`, any visible
strict descendant of `d` forces the subtree's start node to be a strict
descendant of `d` as well: a collapsed node's children are never
entered. -/
lemma collapsed_not_in_subview {ns : List UiNode} {roots : List Nat}
    (wf : ForestWF ns roots) {d : Nat} {nd x : UiNode}
    (hn : ns.get? d = some nd) (hxc : x.children = nd.children)
    (hcol : ¬ (x.is_dir && x.expanded) = true) :
    ∀ (fuel r m : Nat), m ∈ visOne (ns.set d x) fuel r →
      Reach ns d m → d ≠ m → Reach ns d r ∧ d ≠ r := by
  intro fuel
  induction fuel with
  | zero =>
    intro r m hm hr hne
    have : m = r := by simpa [visOne] using hm
    subst this
    exact ⟨hr, hne⟩
  | succ fuel ih =>
    intro r m hm hr hne
    cases hg' : (ns.set d x).get? r with
    | none =>
      rw [visOne_succ_none hg'] at hm
      have : m = r := List.mem_singleton.mp hm
      subst this
      exact ⟨hr, hne⟩
    | some nr =>
      rw [visOne_succ_some hg'] at hm
      rcases List.mem_cons.mp hm with rfl | hmx
      · exact ⟨hr, hne⟩
      · by_cases hguard : (nr.is_dir && nr.expanded) = true
        · rw [if_pos hguard] at hmx
          rcases List.mem_flatten.mp hmx with ⟨l, hl, hml⟩
          rcases List.mem_map.mp hl with ⟨c, hc, rfl⟩
          have hcc : c ∈ childs ns r := by
            rw [← childs_set_same hn hxc r]
            unfold childs
            rw [hg']
            exact hc
          have hrd : r ≠ d := by
            intro he
            subst he
            have hx' : (ns.set r x).get? r = some x := by
              rw [List.get?_eq_getElem?, List.getElem?_set_self (get?_some_lt hn)]
            rw [hg'] at hx'
            have : nr = x := Option.some.inj hx'
            subst this
            exact hcol hguard
          rcases ih c m hml hr hne with ⟨hdc, hdc'⟩
          rcases reach_parent hdc hdc' with ⟨p, hdp, hcp⟩
          have hpr : p = r := wf_uniqPar wf p r c hcp hcc
          subst hpr
          exact ⟨hdp, fun he => hrd he.symm⟩
        · rw [if_neg hguard] at hmx
          cases hmx

/-- Collapsing node `d` removes every strict descendant of `d` from the
produced view. -/
lemma collapsed_descendants_hidden {ns : List UiNode} {roots : List Nat}
    (wf : ForestWF ns roots) {d : Nat} {nd x : UiNode}
    (hn : ns.get? d = some nd) (hxc : x.children = nd.children)
    (hcol : ¬ (x.is_dir && x.expanded) = true) :
    ∀ m, Reach ns d m → d ≠ m → m ∉ computeView (ns.set d x) roots := by
  intro m hr hne hmem
  unfold computeView at hmem
  rcases List.mem_flatten.mp hmem with ⟨l, hl, hml⟩
  rcases List.mem_map.mp hl with ⟨r, hrr, rfl⟩
  rcases collapsed_not_in_subview wf hn hxc hcol _ r m hml hr hne with ⟨hdr, hdr'⟩
  rcases reach_parent hdr hdr' with ⟨p, _, hrp⟩
  exact wf_rootsNotChild wf r hrr p hrp

lemma first_occ_index {α : Type} {l P S : List α} {d : α}
    (he : l = P ++ d :: S) (hdP : d ∉ P) {i : Nat}
    (hv : l.get? i = some d) (hf : d ∉ l.take i) : i = P.length := by
  by_cases hlt : i < P.length
  · exfalso
    apply hdP
    have hv' : P[i]? = some d := by
      rw [List.get?_eq_getElem?, he, List.getElem?_append_left hlt] at hv
      exact hv
    exact List.getElem?_mem hv'
  · by_cases hgt : P.length < i
    · exfalso
      apply hf
      have h1 : (l.take i)[P.length]? = some d := by
        rw [List.getElem?_take_of_lt hgt, he,
          List.getElem?_append_right (Nat.le_refl _)]
        simp
      exact List.getElem?_mem h1
    · omega

lemma get?_append_cons {α : Type} (P : List α) (d : α) (S : List α) :
    (P ++ d :: S).get? P.length = some d := by
  rw [List.get?_eq_getElem?, List.getElem?_append_right (Nat.le_refl _)]
  simp

lemma set_get?_self {ns : List UiNode} {d : Nat} {nd : UiNode}
    (hn : ns.get? d = some nd) : ns.set d nd = ns := by
  apply List.ext_get?
  intro m
  by_cases hm : d = m
  · subst hm
    rw [List.get?_eq_getElem?, List.getElem?_set_self (get?_some_lt hn)]
    exact hn.symm
  · rw [List.get?_eq_getElem?, List.getElem?_set_ne hm, ← List.get?_eq_getElem?]

lemma toggleExpand_eq {a : App} {si ni : Nat} {n : UiNode}
    (hls : a.list_state = some si) (hv : a.view_items.get? si = some ni)
    (hn : a.nodes.get? ni = some n) (hdir : n.is_dir = true) :
    toggleExpand a =
      updateView { a with nodes := a.nodes.set ni { n with expanded := !n.expanded } } := by
  unfold toggleExpand
  rw [hls]
  simp only [hv, hn, if_pos hdir]

lemma appExt {a b : App} (h1 : a.nodes = b.nodes)
    (h2 : a.root_indices = b.root_indices) (h3 : a.list_state = b.list_state)
    (h4 : a.view_items = b.view_items) (h5 : a.should_quit = b.should_quit)
    (h6 : a.confirmed = b.confirmed) : a = b := by
  cases a
  cases b
  simp only at h1 h2 h3 h4 h5 h6
  subst h1 h2 h3 h4 h5 h6
  rfl

/-! ## Claim C7 -/

/-- Claim C7 (confirmed): with the cursor on an expanded directory `d`
(at its unique view position), collapsing `d` removes every strict
descendant of `d` from the produced view — they occupy no position — and
toggling `d`'s expansion again restores the entire application state,
in particular a view identical to the one before the collapse, nested
expand states included (`toggle_expand` twice is the identity).
Hypotheses: the arena/roots well-formedness established by `App::new`,
consistency of the stored view with the projection, and a valid cursor
on `d`'s first view occurrence. -/
theorem C7_collapse_restore (a : App) (si d : Nat) (nd : UiNode)
    (hwf : ForestWF a.nodes a.root_indices)
    (hview : a.view_items = computeView a.nodes a.root_indices)
    (hls : a.list_state = some si)
    (hvd : a.view_items.get? si = some d)
    (hfirst : d ∉ a.view_items.take si)
    (hn : a.nodes.get? d = some nd)
    (hdir : nd.is_dir = true)
    (hexp : nd.expanded = true) :
    (∀ m, Reach a.nodes d m → d ≠ m → m ∉ (toggleExpand a).view_items) ∧
    toggleExpand (toggleExpand a) = a := by
  have hA1 : toggleExpand a =
      updateView { a with nodes := a.nodes.set d { nd with expanded := !nd.expanded } } :=
    toggleExpand_eq hls hvd hn hdir
  have hview1 : (toggleExpand a).view_items =
      computeView (a.nodes.set d { nd with expanded := !nd.expanded })
        a.root_indices := by
    rw [hA1]
    rfl
  have hcol : ¬ (({ nd with expanded := !nd.expanded } : UiNode).is_dir &&
      ({ nd with expanded := !nd.expanded } : UiNode).expanded) = true := by
    simp [hexp]
  constructor
  · intro m hr hne hm
    rw [hview1] at hm
    exact collapsed_descendants_hidden
      (x := { nd with expanded := !nd.expanded }) hwf hn rfl hcol m hr hne hm
  · have hd_mem : d ∈ computeView a.nodes a.root_indices :=
      hview ▸ List.get?_mem hvd
    rcases computeView_split (x := { nd with expanded := !nd.expanded }) hd_mem with
      ⟨P, S, S', e1, e2, hP⟩
    have hsi : si = P.length := first_occ_index (hview.trans e1) hP hvd hfirst
    have hls2 : (toggleExpand a).list_state = some si := by
      rw [hA1]
      exact hls
    have hv2 : (toggleExpand a).view_items.get? si = some d := by
      rw [hview1, e2, hsi]
      exact get?_append_cons P d S'
    have hn2 : (toggleExpand a).nodes.get? d =
        some { nd with expanded := !nd.expanded } := by
      rw [hA1]
      show (a.nodes.set d _).get? d = _
      rw [List.get?_eq_getElem?, List.getElem?_set_self (get?_some_lt hn)]
    have hA2 : toggleExpand (toggleExpand a) =
        updateView { toggleExpand a with
          nodes := (toggleExpand a).nodes.set d
            { { nd with expanded := !nd.expanded } with
              expanded := !({ nd with expanded := !nd.expanded } : UiNode).expanded } } :=
      toggleExpand_eq hls2 hv2 hn2 hdir
    have hnodes2 : (toggleExpand a).nodes.set d
        { { nd with expanded := !nd.expanded } with
          expanded := !({ nd with expanded := !nd.expanded } : UiNode).expanded } =
        a.nodes := by
      rw [hA1]
      show (a.nodes.set d _).set d _ = a.nodes
      rw [List.set_set]
      have hb : ({ { nd with expanded := !nd.expanded } with
          expanded := !({ nd with expanded := !nd.expanded } : UiNode).expanded } :
            UiNode) = nd := by
        show ({ nd with expanded := !(!nd.expanded) } : UiNode) = nd
        rw [Bool.not_not]
      rw [hb]
      exact set_get?_self hn
    rw [hA2]
    apply appExt
    · rw [hnodes2]
      rfl
    · rw [hA1]
      rfl
    · show (toggleExpand a).list_state = a.list_state
      rw [hls2, hls]
    · show computeView _ _ = a.view_items
      rw [hnodes2]
      have hroots : ({ toggleExpand a with
          nodes := (toggleExpand a).nodes.set d
            { { nd with expanded := !nd.expanded } with
              expanded := !({ nd with expanded := !nd.expanded } : UiNode).expanded } } :
          App).root_indices = a.root_indices := by
        rw [hA1]
        rfl
      rw [hroots, hview]
    · rw [hA1]
      rfl
    · rw [hA1]
      rfl

/-- Witness for C7: the theorem applied at the concrete two-file app
(`src/m.rs`, `src/u.rs`) with the cursor on the expanded directory
`src`. -/
theorem C7_witness :
    (∀ m, Reach (AppNew [⟨"", ["src", "m.rs"]⟩, ⟨"", ["src", "u.rs"]⟩] []).nodes 0 m →
      0 ≠ m →
      m ∉ (toggleExpand (AppNew [⟨"", ["src", "m.rs"]⟩, ⟨"", ["src", "u.rs"]⟩] [])).view_items) ∧
    toggleExpand (toggleExpand (AppNew [⟨"", ["src", "m.rs"]⟩, ⟨"", ["src", "u.rs"]⟩] [])) =
      AppNew [⟨"", ["src", "m.rs"]⟩, ⟨"", ["src", "u.rs"]⟩] [] :=
  C7_collapse_restore (AppNew [⟨"", ["src", "m.rs"]⟩, ⟨"", ["src", "u.rs"]⟩] [])
    0 0 ⟨["src"], "src", true, true, true, 0, [1, 2]⟩
    (by decide) rfl rfl rfl (by decide) rfl rfl rfl

/-! ## Recursive-selection lemmas -/

lemma setSels_succ_none {ns : List UiNode} {fuel idx : Nat} {b : Bool}
    (hg : ns.get? idx = none) : setSels (fuel + 1) ns idx b = ns := by
  simp only [setSels, hg]

lemma setSels_succ_some {ns : List UiNode} {fuel idx : Nat} {b : Bool}
    {n : UiNode} (hg : ns.get? idx = some n) :
    setSels (fuel + 1) ns idx b =
      n.children.foldl (fun acc c => setSels fuel acc c b)
        (ns.set idx { n with selected := b }) := by
  simp only [setSels, hg]

lemma setSels_length :
    ∀ (fuel : Nat) (ns : List UiNode) (idx : Nat) (b : Bool),
      (setSels fuel ns idx b).length = ns.length := by
  intro fuel
  induction fuel with
  | zero => intro ns idx b; rfl
  | succ fuel ih =>
    intro ns idx b
    cases hg : ns.get? idx with
    | none => rw [setSels_succ_none hg]
    | some n =>
      rw [setSels_succ_some hg]
      have hfold : ∀ (cs : List Nat) (acc : List UiNode),
          (cs.foldl (fun acc c => setSels fuel acc c b) acc).length =
            acc.length := by
        intro cs
        induction cs with
        | nil => intro acc; rfl
        | cons c cs' ihc => intro acc; rw [List.foldl_cons, ihc, ih]
      rw [hfold, List.length_set]

/-- Every node of the arena after a recursive selection pass is either
untouched or has exactly its `selected` flag replaced. -/
lemma setSels_shape :
    ∀ (fuel : Nat) (ns : List UiNode) (idx : Nat) (b : Bool) (m : Nat),
      (setSels fuel ns idx b).get? m = ns.get? m ∨
      (setSels fuel ns idx b).get? m =
        (ns.get? m).map (fun u => { u with selected := b }) := by
  intro fuel
  induction fuel with
  | zero => intro ns idx b m; exact Or.inl rfl
  | succ fuel ih =>
    intro ns idx b m
    cases hg : ns.get? idx with
    | none => rw [setSels_succ_none hg]; exact Or.inl rfl
    | some n =>
      rw [setSels_succ_some hg]
      have hfold : ∀ (cs : List Nat) (acc : List UiNode),
          (acc.get? m = ns.get? m ∨
            acc.get? m = (ns.get? m).map (fun u => { u with selected := b })) →
          ((cs.foldl (fun acc c => setSels fuel acc c b) acc).get? m = ns.get? m ∨
            (cs.foldl (fun acc c => setSels fuel acc c b) acc).get? m =
              (ns.get? m).map (fun u => { u with selected := b })) := by
        intro cs
        induction cs with
        | nil => intro acc h; exact h
        | cons c cs' ihc =>
          intro acc h
          rw [List.foldl_cons]
          apply ihc
          rcases ih acc c b m with h' | h'
          · rwa [h']
          · rw [h']
            rcases h with h'' | h''
            · rw [h'']
              exact Or.inr rfl
            · rw [h'', Option.map_map]
              exact Or.inr rfl
      apply hfold
      by_cases hm : m = idx
      · subst hm
        rw [List.get?_eq_getElem?, List.getElem?_set_self (get?_some_lt hg), hg]
        exact Or.inr rfl
      · rw [List.get?_eq_getElem?, List.getElem?_set_ne (fun h => hm h.symm),
          ← List.get?_eq_getElem?]
        exact Or.inl rfl

lemma setSels_childs (fuel : Nat) (ns : List UiNode) (idx : Nat) (b : Bool) :
    ∀ p, childs (setSels fuel ns idx b) p = childs ns p := by
  intro p
  unfold childs
  rcases setSels_shape fuel ns idx b p with h | h
  · rw [h]
  · rw [h]
    cases ns.get? p with
    | none => rfl
    | some u => rfl

/-- Characterization of `set_recursive_selection`: under the
ascending-children invariant and with sufficient fuel, exactly the
descendants of the target node get the new flag, every other node is
untouched. -/
lemma setSels_spec :
    ∀ (fuel : Nat) (ns : List UiNode) (idx : Nat) (b : Bool),
      (∀ i j, j ∈ childs ns i → i < j ∧ j < ns.length) →
      ns.length - idx ≤ fuel →
      (∀ m, Reach ns idx m →
        (setSels fuel ns idx b).get? m =
          (ns.get? m).map (fun u => { u with selected := b })) ∧
      (∀ m, ¬ Reach ns idx m → (setSels fuel ns idx b).get? m = ns.get? m) := by
  intro fuel
  induction fuel with
  | zero =>
    intro ns idx b hasc hfuel
    have hidx : ns.length ≤ idx := by omega
    have hnil : childs ns idx = [] := childs_of_ge hidx
    constructor
    · intro m hr
      have hm : m = idx := reach_of_childs_nil hnil hr
      subst hm
      show ns.get? m = _
      have hnone : ns.get? m = none := by
        rw [List.get?_eq_getElem?, List.getElem?_eq_none hidx]
      rw [hnone]
      rfl
    · intro m _
      rfl
  | succ fuel ih =>
    intro ns idx b hasc hfuel
    cases hg : ns.get? idx with
    | none =>
      have hnil : childs ns idx = [] := by unfold childs; rw [hg]
      rw [setSels_succ_none hg]
      constructor
      · intro m hr
        have hm : m = idx := reach_of_childs_nil hnil hr
        subst hm
        rw [hg]
        rfl
      · intro m _
        rfl
    | some n =>
      rw [setSels_succ_some hg]
      have hchl : childs ns idx = n.children := by unfold childs; rw [hg]
      have hfold : ∀ (cs : List Nat), (∀ c ∈ cs, c ∈ childs ns idx) →
          ∀ (acc : List UiNode) (D : Nat → Prop),
          acc.length = ns.length →
          (∀ p, childs acc p = childs ns p) →
          (∀ m, D m → acc.get? m =
            (ns.get? m).map (fun u => { u with selected := b })) →
          (∀ m, ¬ D m → acc.get? m = ns.get? m) →
          (∀ m, (D m ∨ ∃ c ∈ cs, Reach ns c m) →
            (cs.foldl (fun acc c => setSels fuel acc c b) acc).get? m =
              (ns.get? m).map (fun u => { u with selected := b })) ∧
          (∀ m, ¬ (D m ∨ ∃ c ∈ cs, Reach ns c m) →
            (cs.foldl (fun acc c => setSels fuel acc c b) acc).get? m =
              ns.get? m) := by
        intro cs
        induction cs with
        | nil =>
          intro _ acc D _ _ hD hD'
          constructor
          · intro m hm
            rcases hm with hm | ⟨c, hc, _⟩
            · exact hD m hm
            · cases hc
          · intro m hm
            exact hD' m (fun h => hm (Or.inl h))
        | cons c cs' ihc =>
          intro hcs acc D hlen hch hD hD'
          rw [List.foldl_cons]
          have hcc : c ∈ childs ns idx := hcs c (List.mem_cons_self c cs')
          have hasc_acc : ∀ i j, j ∈ childs acc i → i < j ∧ j < acc.length := by
            intro i j hj
            rw [hch] at hj
            rw [hlen]
            exact hasc i j hj
          have hfuel_c : acc.length - c ≤ fuel := by
            have hic : idx < c := (hasc idx c hcc).1
            rw [hlen]
            omega
          have hspec := ih acc c b hasc_acc hfuel_c
          have hreach_iff : ∀ m, Reach acc c m ↔ Reach ns c m := by
            intro m
            constructor
            · exact reach_congr hch
            · exact reach_congr (fun p => (hch p).symm)
          refine ?_
          have hres := ihc (fun c' hc' => hcs c' (List.mem_cons_of_mem c hc'))
            (setSels fuel acc c b) (fun m => D m ∨ Reach ns c m)
            ((setSels_length fuel acc c b).trans hlen)
            (fun p => (setSels_childs fuel acc c b p).trans (hch p))
            ?_ ?_
          · constructor
            · intro m hm
              apply hres.1
              rcases hm with hm | ⟨c', hc', hr'⟩
              · exact Or.inl (Or.inl hm)
              · rcases List.mem_cons.mp hc' with rfl | hc''
                · exact Or.inl (Or.inr hr')
                · exact Or.inr ⟨c', hc'', hr'⟩
            · intro m hm
              apply hres.2
              intro hcon
              apply hm
              rcases hcon with (hm' | hm') | ⟨c', hc', hr'⟩
              · exact Or.inl hm'
              · exact Or.inr ⟨c, List.mem_cons_self c cs', hm'⟩
              · exact Or.inr ⟨c', List.mem_cons_of_mem c hc', hr'⟩
          · intro m hm
            rcases hm with hm | hm
            · by_cases hrc : Reach ns c m
              · rw [hspec.1 m ((hreach_iff m).mpr hrc), hD m hm, Option.map_map]
                rfl
              · rw [hspec.2 m (fun h => hrc ((hreach_iff m).mp h))]
                exact hD m hm
            · rw [hspec.1 m ((hreach_iff m).mpr hm)]
              by_cases hDm : D m
              · rw [hD m hDm, Option.map_map]
                rfl
              · rw [hD' m hDm]
          · intro m hm
            have hm1 : ¬ D m := fun h => hm (Or.inl h)
            have hm2 : ¬ Reach ns c m := fun h => hm (Or.inr h)
            rw [hspec.2 m (fun h => hm2 ((hreach_iff m).mp h))]
            exact hD' m hm1
      have hmain := hfold n.children (fun c hc => by rw [hchl]; exact hc)
        (ns.set idx { n with selected := b }) (fun m => m = idx)
        (List.length_set ns idx _)
        (childs_set_same hg rfl)
        ?_ ?_
      · constructor
        · intro m hr
          apply hmain.1
          rcases reach_head hr with rfl | ⟨c, hc, hr'⟩
          · exact Or.inl rfl
          · rw [hchl] at hc
            exact Or.inr ⟨c, hc, hr'⟩
        · intro m hr
          apply hmain.2
          intro hcon
          apply hr
          rcases hcon with rfl | ⟨c, hc, hr'⟩
          · exact Reach.refl _
          · exact reach_prepend (by rw [hchl]; exact hc) hr'
      · intro m hm
        subst hm
        rw [List.get?_eq_getElem?, List.getElem?_set_self (get?_some_lt hg), hg]
        rfl
      · intro m hm
        rw [List.get?_eq_getElem?, List.getElem?_set_ne (fun h => hm h.symm),
          ← List.get?_eq_getElem?]

lemma toggleSelection_eq {a : App} {si ni : Nat} {n : UiNode}
    (hls : a.list_state = some si) (hv : a.view_items.get? si = some ni)
    (hn : a.nodes.get? ni = some n) :
    toggleSelection a =
      { a with nodes := setSels a.nodes.length a.nodes ni (!n.selected) } := by
  unfold toggleSelection
  rw [hls]
  simp only [hv, hn]

/-! ## Claim C6 -/

/-- Claim C6 (confirmed): with the cursor on node `n` (index `ni`),
`toggle_selection` sets the `selected` flag of `ni` and of every
transitive descendant of `ni` to the negation of `ni`'s prior value —
each such node keeps all other fields — and leaves every node that is
not `ni` or a descendant of `ni` entirely unchanged; in particular every
ancestor (every index below `ni`) is unchanged, and the view, cursor and
roots are untouched. -/
theorem C6_toggle_selection (a : App) (si ni : Nat) (n : UiNode)
    (hwf : ForestWF a.nodes a.root_indices)
    (hls : a.list_state = some si)
    (hv : a.view_items.get? si = some ni)
    (hn : a.nodes.get? ni = some n) :
    (∀ m, Reach a.nodes ni m →
      (toggleSelection a).nodes.get? m =
        (a.nodes.get? m).map (fun u => { u with selected := !n.selected })) ∧
    (∀ m, ¬ Reach a.nodes ni m →
      (toggleSelection a).nodes.get? m = a.nodes.get? m) ∧
    (∀ m, m < ni → (toggleSelection a).nodes.get? m = a.nodes.get? m) ∧
    (toggleSelection a).view_items = a.view_items ∧
    (toggleSelection a).list_state = a.list_state ∧
    (toggleSelection a).root_indices = a.root_indices := by
  have hA : toggleSelection a =
      { a with nodes := setSels a.nodes.length a.nodes ni (!n.selected) } :=
    toggleSelection_eq hls hv hn
  have hspec := setSels_spec a.nodes.length a.nodes ni (!n.selected)
    (wf_asc hwf) (Nat.sub_le _ _)
  refine ⟨?_, ?_, ?_, ?_, ?_, ?_⟩
  · intro m hr
    rw [hA]
    exact hspec.1 m hr
  · intro m hr
    rw [hA]
    exact hspec.2 m hr
  · intro m hm
    rw [hA]
    apply hspec.2
    intro hr
    have := reach_le hwf hr
    omega
  · rw [hA]
  · rw [hA]
  · rw [hA]

/-- Witness for C6: the theorem applied at the concrete two-file app
(`src/m.rs`, `src/u.rs`) with the cursor on the directory `src`. -/
theorem C6_witness :
    (∀ m, Reach (AppNew [⟨"", ["src", "m.rs"]⟩, ⟨"", ["src", "u.rs"]⟩] []).nodes 0 m →
      (toggleSelection (AppNew [⟨"", ["src", "m.rs"]⟩, ⟨"", ["src", "u.rs"]⟩] [])).nodes.get? m =
        ((AppNew [⟨"", ["src", "m.rs"]⟩, ⟨"", ["src", "u.rs"]⟩] []).nodes.get? m).map
          (fun u => { u with selected :=
            !(⟨["src"], "src", true, true, true, 0, [1, 2]⟩ : UiNode).selected })) ∧
    (∀ m, ¬ Reach (AppNew [⟨"", ["src", "m.rs"]⟩, ⟨"", ["src", "u.rs"]⟩] []).nodes 0 m →
      (toggleSelection (AppNew [⟨"", ["src", "m.rs"]⟩, ⟨"", ["src", "u.rs"]⟩] [])).nodes.get? m =
        (AppNew [⟨"", ["src", "m.rs"]⟩, ⟨"", ["src", "u.rs"]⟩] []).nodes.get? m) ∧
    (∀ m, m < 0 →
      (toggleSelection (AppNew [⟨"", ["src", "m.rs"]⟩, ⟨"", ["src", "u.rs"]⟩] [])).nodes.get? m =
        (AppNew [⟨"", ["src", "m.rs"]⟩, ⟨"", ["src", "u.rs"]⟩] []).nodes.get? m) ∧
    (toggleSelection (AppNew [⟨"", ["src", "m.rs"]⟩, ⟨"", ["src", "u.rs"]⟩] [])).view_items =
      (AppNew [⟨"", ["src", "m.rs"]⟩, ⟨"", ["src", "u.rs"]⟩] []).view_items ∧
    (toggleSelection (AppNew [⟨"", ["src", "m.rs"]⟩, ⟨"", ["src", "u.rs"]⟩] [])).list_state =
      (AppNew [⟨"", ["src", "m.rs"]⟩, ⟨"", ["src", "u.rs"]⟩] []).list_state ∧
    (toggleSelection (AppNew [⟨"", ["src", "m.rs"]⟩, ⟨"", ["src", "u.rs"]⟩] [])).root_indices =
      (AppNew [⟨"", ["src", "m.rs"]⟩, ⟨"", ["src", "u.rs"]⟩] []).root_indices :=
  C6_toggle_selection (AppNew [⟨"", ["src", "m.rs"]⟩, ⟨"", ["src", "u.rs"]⟩] [])
    0 0 ⟨["src"], "src", true, true, true, 0, [1, 2]⟩
    (by decide) rfl rfl rfl

/-! ## Invariant-preservation lemmas -/

lemma forestWF_congr {ns ns' : List UiNode} {roots : List Nat}
    (hlen : ns'.length = ns.length) (hch : ∀ p, childs ns' p = childs ns p)
    (h : ForestWF ns roots) : ForestWF ns' roots := by
  obtain ⟨h1, h2, h3, h4, h5, h6⟩ := h
  refine ⟨?_, ?_, ?_, h4, ?_, ?_⟩
  · intro i hi j hj
    rw [hch] at hj
    rw [hlen] at hi ⊢
    exact h1 i hi j hj
  · intro i hi
    rw [hch]
    rw [hlen] at hi
    exact h2 i hi
  · intro p hp q hq j hjp hjq
    rw [hch] at hjp hjq
    rw [hlen] at hp hq
    exact h3 p hp q hq j hjp hjq
  · intro r hr
    rw [hlen]
    exact h5 r hr
  · intro r hr p hp
    rw [hch]
    rw [hlen] at hp
    exact h6 r hr p hp

/-- Changing only `selected` flags leaves every view projection
unchanged. -/
lemma visOne_selmap_congr {ns ns' : List UiNode} {b : Bool}
    (hsh : ∀ m, ns'.get? m = ns.get? m ∨
      ns'.get? m = (ns.get? m).map (fun u => { u with selected := b })) :
    ∀ (fuel i : Nat), visOne ns' fuel i = visOne ns fuel i := by
  intro fuel
  induction fuel with
  | zero => intro i; rfl
  | succ fuel ih =>
    intro i
    have hfun : visOne ns' fuel = visOne ns fuel := funext ih
    cases hg : ns.get? i with
    | none =>
      have hg' : ns'.get? i = none := by
        rcases hsh i with h | h
        · rw [h, hg]
        · rw [h, hg]
          rfl
      rw [visOne_succ_none hg', visOne_succ_none hg]
    | some n =>
      rcases hsh i with h | h
      · rw [visOne_succ_some (h.trans hg), visOne_succ_some hg, hfun]
      · have hg' : ns'.get? i = some { n with selected := b } := by
          rw [h, hg]
          rfl
        rw [visOne_succ_some hg', visOne_succ_some hg, hfun]

lemma computeView_selmap_congr {ns ns' : List UiNode} {roots : List Nat}
    {b : Bool} (hlen : ns'.length = ns.length)
    (hsh : ∀ m, ns'.get? m = ns.get? m ∨
      ns'.get? m = (ns.get? m).map (fun u => { u with selected := b })) :
    computeView ns' roots = computeView ns roots := by
  unfold computeView
  rw [hlen]
  congr 1
  apply List.map_congr_left
  intro r _
  exact visOne_selmap_congr hsh ns.length r

lemma nodup_not_mem_take {α : Type} {l : List α} (hnd : l.Nodup) {i : Nat}
    {d : α} (hv : l.get? i = some d) : d ∉ l.take i := by
  intro hmem
  rcases List.mem_iff_get?.mp hmem with ⟨j, hj⟩
  have hjlen : j < (l.take i).length := by
    by_contra h
    rw [List.get?_eq_getElem?, List.getElem?_eq_none (Nat.le_of_not_lt h)] at hj
    cases hj
  have hji : j < i := by
    have := List.length_take_le i l
    omega
  have hj' : l[j]? = some d := by
    rw [List.get?_eq_getElem?, List.getElem?_take_of_lt hji] at hj
    exact hj
  have hl : i < l.length := by
    by_contra h
    rw [List.get?_eq_getElem?, List.getElem?_eq_none (Nat.le_of_not_lt h)] at hv
    cases hv
  have : j = i := by
    apply List.getElem?_inj (by omega : j < l.length) hnd
    rw [hj', ← List.get?_eq_getElem?, hv]
  omega

lemma toggleSelection_noop_none {a : App} (h : a.list_state = none) :
    toggleSelection a = a := by
  unfold toggleSelection
  rw [h]

lemma toggleExpand_noop_none {a : App} (h : a.list_state = none) :
    toggleExpand a = a := by
  unfold toggleExpand
  rw [h]

lemma toggleSelection_noop_oob {a : App} {si : Nat}
    (h : a.list_state = some si) (hv : a.view_items.get? si = none) :
    toggleSelection a = a := by
  unfold toggleSelection
  rw [h]
  simp only [hv]

lemma toggleExpand_noop_oob {a : App} {si : Nat}
    (h : a.list_state = some si) (hv : a.view_items.get? si = none) :
    toggleExpand a = a := by
  unfold toggleExpand
  rw [h]
  simp only [hv]

lemma toggleSelection_noop_nonode {a : App} {si ni : Nat}
    (h : a.list_state = some si) (hv : a.view_items.get? si = some ni)
    (hn : a.nodes.get? ni = none) : toggleSelection a = a := by
  unfold toggleSelection
  rw [h]
  simp only [hv, hn]

lemma toggleExpand_noop_nonode {a : App} {si ni : Nat}
    (h : a.list_state = some si) (hv : a.view_items.get? si = some ni)
    (hn : a.nodes.get? ni = none) : toggleExpand a = a := by
  unfold toggleExpand
  rw [h]
  simp only [hv, hn]

lemma toggleExpand_noop_notdir {a : App} {si ni : Nat} {n : UiNode}
    (h : a.list_state = some si) (hv : a.view_items.get? si = some ni)
    (hn : a.nodes.get? ni = some n) (hd : n.is_dir ≠ true) :
    toggleExpand a = a := by
  unfold toggleExpand
  rw [h]
  simp only [hv, hn, if_neg hd]

/-! ## Builder correctness: `App::new` produces a well-formed forest -/

lemma childs_append_lt {ns : List UiNode} {node : UiNode} {p : Nat}
    (h : p < ns.length) : childs (ns ++ [node]) p = childs ns p := by
  unfold childs
  rw [List.get?_eq_getElem?, List.get?_eq_getElem?, List.getElem?_append_left h]

lemma childs_append_eq {ns : List UiNode} {node : UiNode} :
    childs (ns ++ [node]) ns.length = node.children := by
  unfold childs
  rw [List.get?_eq_getElem?, List.getElem?_append_right (Nat.le_refl _),
    Nat.sub_self]
  rfl

lemma childs_append_gt {ns : List UiNode} {node : UiNode} {p : Nat}
    (h : ns.length < p) : childs (ns ++ [node]) p = [] := by
  apply childs_of_ge
  rw [List.length_append]
  simpa using h

lemma addChild_eq {nodes : List UiNode} {p : Nat} {np : UiNode} {idx : Nat}
    (hp : nodes.get? p = some np) :
    addChild nodes p idx =
      nodes.set p { np with children := np.children ++ [idx], is_dir := true } := by
  unfold addChild
  rw [hp]

lemma childs_addChild_self {nodes : List UiNode} {p : Nat} {np : UiNode}
    {idx : Nat} (hp : nodes.get? p = some np) :
    childs (addChild nodes p idx) p = childs nodes p ++ [idx] := by
  rw [addChild_eq hp]
  unfold childs
  rw [List.get?_eq_getElem?, List.getElem?_set_self (get?_some_lt hp), hp]

lemma childs_addChild_other {nodes : List UiNode} {p q : Nat} {np : UiNode}
    {idx : Nat} (hp : nodes.get? p = some np) (hq : q ≠ p) :
    childs (addChild nodes p idx) q = childs nodes q := by
  rw [addChild_eq hp]
  unfold childs
  rw [List.get?_eq_getElem?, List.get?_eq_getElem?,
    List.getElem?_set_ne (fun h => hq h.symm)]

lemma addChild_length {nodes : List UiNode} {p idx : Nat} :
    (addChild nodes p idx).length = nodes.length := by
  unfold addChild
  cases nodes.get? p with
  | none => rfl
  | some np => exact List.length_set nodes p _

/-- Appending a fresh childless node as a new root preserves
well-formedness. -/
lemma forestWF_append_root {ns : List UiNode} {roots : List Nat}
    {node : UiNode} (h : ForestWF ns roots) (hch : node.children = []) :
    ForestWF (ns ++ [node]) (roots ++ [ns.length]) := by
  obtain ⟨h1, h2, h3, h4, h5, h6⟩ := h
  have hlen : (ns ++ [node]).length = ns.length + 1 := by simp
  refine ⟨?_, ?_, ?_, ?_, ?_, ?_⟩
  · intro i hi j hj
    rw [hlen] at hi ⊢
    by_cases hie : i < ns.length
    · rw [childs_append_lt hie] at hj
      have := h1 i hie j hj
      omega
    · have : i = ns.length := by omega
      subst this
      rw [childs_append_eq, hch] at hj
      cases hj
  · intro i hi
    rw [hlen] at hi
    by_cases hie : i < ns.length
    · rw [childs_append_lt hie]
      exact h2 i hie
    · have : i = ns.length := by omega
      subst this
      rw [childs_append_eq, hch]
      exact List.nodup_nil
  · intro p hp q hq j hjp hjq
    rw [hlen] at hp hq
    by_cases hpe : p < ns.length
    · by_cases hqe : q < ns.length
      · rw [childs_append_lt hpe] at hjp
        rw [childs_append_lt hqe] at hjq
        exact h3 p hpe q hqe j hjp hjq
      · have : q = ns.length := by omega
        subst this
        rw [childs_append_eq, hch] at hjq
        cases hjq
    · have : p = ns.length := by omega
      subst this
      rw [childs_append_eq, hch] at hjp
      cases hjp
  · rw [List.nodup_append]
    refine ⟨h4, List.nodup_singleton _, ?_⟩
    intro r hr hr'
    have : r = ns.length := by simpa using hr'
    have := h5 r hr
    omega
  · intro r hr
    rw [hlen]
    rcases List.mem_append.mp hr with hr' | hr'
    · have := h5 r hr'
      omega
    · have : r = ns.length := by simpa using hr'
      omega
  · intro r hr p hp
    rw [hlen] at hp
    rcases List.mem_append.mp hr with hr' | hr'
    · by_cases hpe : p < ns.length
      · rw [childs_append_lt hpe]
        exact h6 r hr' p hpe
      · have : p = ns.length := by omega
        subst this
        rw [childs_append_eq, hch]
        exact List.not_mem_nil r
    · have hrlen : r = ns.length := by simpa using hr'
      subst hrlen
      by_cases hpe : p < ns.length
      · rw [childs_append_lt hpe]
        intro hmem
        have := h1 p hpe _ hmem
        omega
      · have : p = ns.length := by omega
        subst this
        rw [childs_append_eq, hch]
        exact List.not_mem_nil _
  -- auxiliary facts used above

/-- Appending a fresh childless node and attaching it as the last child
of an existing node preserves well-formedness. -/
lemma forestWF_append_child {ns : List UiNode} {roots : List Nat}
    {node np : UiNode} {p0 : Nat} (h : ForestWF ns roots)
    (hch : node.children = []) (hp0 : ns.get? p0 = some np) :
    ForestWF (addChild (ns ++ [node]) p0 ns.length) roots := by
  obtain ⟨h1, h2, h3, h4, h5, h6⟩ := h
  have hp0lt : p0 < ns.length := get?_some_lt hp0
  have hp0' : (ns ++ [node]).get? p0 = some np := by
    rw [List.get?_eq_getElem?, List.getElem?_append_left hp0lt,
      ← List.get?_eq_getElem?]
    exact hp0
  have hlen : (addChild (ns ++ [node]) p0 ns.length).length = ns.length + 1 := by
    rw [addChild_length]
    simp
  have hCself : childs (addChild (ns ++ [node]) p0 ns.length) p0 =
      childs ns p0 ++ [ns.length] := by
    rw [childs_addChild_self hp0', childs_append_lt hp0lt]
  have hCother : ∀ q, q ≠ p0 →
      childs (addChild (ns ++ [node]) p0 ns.length) q =
        childs (ns ++ [node]) q := fun q hq => childs_addChild_other hp0' hq
  have hCsmall : ∀ q, q ≠ p0 → q < ns.length →
      childs (addChild (ns ++ [node]) p0 ns.length) q = childs ns q := by
    intro q hq hql
    rw [hCother q hq, childs_append_lt hql]
  have hCnew : ∀ q, q ≠ p0 → ¬ q < ns.length →
      childs (addChild (ns ++ [node]) p0 ns.length) q = [] := by
    intro q hq hql
    rw [hCother q hq]
    by_cases hqe : q = ns.length
    · subst hqe
      rw [childs_append_eq, hch]
    · exact childs_append_gt (by omega)
  refine ⟨?_, ?_, ?_, h4, ?_, ?_⟩
  · intro i hi j hj
    rw [hlen] at hi ⊢
    by_cases hip : i = p0
    · subst hip
      rw [hCself] at hj
      rcases List.mem_append.mp hj with hj' | hj'
      · have := h1 i hp0lt j hj'
        omega
      · have : j = ns.length := by simpa using hj'
        omega
    · by_cases hie : i < ns.length
      · rw [hCsmall i hip hie] at hj
        have := h1 i hie j hj
        omega
      · rw [hCnew i hip hie] at hj
        cases hj
  · intro i hi
    by_cases hip : i = p0
    · subst hip
      rw [hCself, List.nodup_append]
      refine ⟨h2 i hp0lt, List.nodup_singleton _, ?_⟩
      intro j hj hj'
      have : j = ns.length := by simpa using hj'
      have := h1 i hp0lt j hj
      omega
    · by_cases hie : i < ns.length
      · rw [hCsmall i hip hie]
        exact h2 i hie
      · rw [hCnew i hip hie]
        exact List.nodup_nil
  · intro p hp q hq j hjp hjq
    have hmem : ∀ q', j ∈ childs (addChild (ns ++ [node]) p0 ns.length) q' →
        (j = ns.length → q' = p0) ∧ (j ≠ ns.length → j ∈ childs ns q') := by
      intro q' hj
      by_cases hqp : q' = p0
      · subst hqp
        rw [hCself] at hj
        rcases List.mem_append.mp hj with hj' | hj'
        · constructor
          · intro hje
            rfl
          · intro _
            exact hj'
        · have : j = ns.length := by simpa using hj'
          subst this
          exact ⟨fun _ => rfl, fun hne => absurd rfl hne⟩
      · by_cases hqe : q' < ns.length
        · rw [hCsmall q' hqp hqe] at hj
          constructor
          · intro hje
            subst hje
            have := h1 q' hqe _ hj
            omega
          · intro _
            exact hj
        · rw [hCnew q' hqp hqe] at hj
          cases hj
    by_cases hje : j = ns.length
    · rw [(hmem p hjp).1 hje, (hmem q hjq).1 hje]
    · have hp' := (hmem p hjp).2 hje
      have hq' := (hmem q hjq).2 hje
      exact h3 p (mem_childs_lt hp') q (mem_childs_lt hq') j hp' hq'
  · intro r hr
    rw [hlen]
    have := h5 r hr
    omega
  · intro r hr p hp
    have hrlt := h5 r hr
    by_cases hpp : p = p0
    · subst hpp
      rw [hCself]
      intro hmem
      rcases List.mem_append.mp hmem with hm | hm
      · exact h6 r hr p (mem_childs_lt hm) hm
      · have : r = ns.length := by simpa using hm
        omega
    · by_cases hpe : p < ns.length
      · rw [hCsmall p hpp hpe]
        exact h6 r hr p hpe
      · rw [hCnew p hpp hpe]
        exact List.not_mem_nil r

lemma lookupPath_head {m : List (List String × Nat)} {k : List String}
    {v : Nat} : lookupPath ((k, v) :: m) k = some v := by
  unfold lookupPath
  rw [if_pos rfl]

lemma lookupPath_lt {L : Nat} :
    ∀ {m : List (List String × Nat)}, (∀ kv ∈ m, kv.2 < L) →
      ∀ {k : List String} {v : Nat}, lookupPath m k = some v → v < L := by
  intro m
  induction m with
  | nil =>
    intro _ k v h
    cases h
  | cons kv t ih =>
    intro hmb k v h
    obtain ⟨k', v'⟩ := kv
    unfold lookupPath at h
    by_cases he : k' = k
    · rw [if_pos he] at h
      injection h with hv
      exact hv ▸ hmb (k', v') (List.mem_cons_self _ _)
    · rw [if_neg he] at h
      exact ih (fun kv hk => hmb kv (List.mem_cons_of_mem _ hk)) h

lemma stepComp_found {rel : List String} {st : BuildState} {cp : List String}
    {pi : Option Nat} {comp : String}
    (hlk : (lookupPath st.pathToIndex (cp ++ [comp])).isSome = true) :
    stepComp rel (st, cp, pi) comp =
      (st, cp ++ [comp], lookupPath st.pathToIndex (cp ++ [comp])) := by
  simp only [stepComp]
  rw [if_pos hlk]

lemma stepComp_new_root {rel : List String} {st : BuildState}
    {cp : List String} {comp : String}
    (hlk : ¬ (lookupPath st.pathToIndex (cp ++ [comp])).isSome = true) :
    stepComp rel (st, cp, none) comp =
      ({ nodes := st.nodes ++
            [{ path := cp ++ [comp], name := comp,
               is_dir := decide (cp ++ [comp] ≠ rel), expanded := true,
               selected := true, depth := (cp ++ [comp]).length - 1,
               children := [] }],
         pathToIndex := (cp ++ [comp], st.nodes.length) :: st.pathToIndex,
         rootIndices := st.rootIndices ++ [st.nodes.length] },
       cp ++ [comp], some st.nodes.length) := by
  simp only [stepComp]
  rw [if_neg hlk]
  simp only [lookupPath_head]

lemma stepComp_new_child {rel : List String} {st : BuildState}
    {cp : List String} {comp : String} {p0 : Nat}
    (hlk : ¬ (lookupPath st.pathToIndex (cp ++ [comp])).isSome = true) :
    stepComp rel (st, cp, some p0) comp =
      ({ nodes := addChild (st.nodes ++
            [{ path := cp ++ [comp], name := comp,
               is_dir := decide (cp ++ [comp] ≠ rel), expanded := true,
               selected := true, depth := (cp ++ [comp]).length - 1,
               children := [] }]) p0 st.nodes.length,
         pathToIndex := (cp ++ [comp], st.nodes.length) :: st.pathToIndex,
         rootIndices := st.rootIndices },
       cp ++ [comp], some st.nodes.length) := by
  simp only [stepComp]
  rw [if_neg hlk]
  simp only [lookupPath_head]

/-- One inner-loop iteration preserves the builder invariant. -/
lemma stepComp_TInv {rel : List String} {t : BuildState × List String × Option Nat}
    (h : TInv t) (comp : String) : TInv (stepComp rel t comp) := by
  obtain ⟨st, cp, pi⟩ := t
  obtain ⟨⟨hmb, hwf⟩, hpi⟩ := h
  replace hmb : ∀ kv ∈ st.pathToIndex, kv.2 < st.nodes.length := hmb
  replace hwf : ForestWF st.nodes st.rootIndices := hwf
  replace hpi : ∀ p, pi = some p → p < st.nodes.length := hpi
  by_cases hlk : (lookupPath st.pathToIndex (cp ++ [comp])).isSome = true
  · rw [stepComp_found hlk]
    refine ⟨⟨hmb, hwf⟩, ?_⟩
    intro p hp
    exact lookupPath_lt hmb hp
  · cases pi with
    | none =>
      rw [stepComp_new_root hlk]
      refine ⟨⟨?_, ?_⟩, ?_⟩
      · intro kv hkv
        rcases List.mem_cons.mp hkv with he | hm
        · subst he
          simp
        · have := hmb kv hm
          simp only [List.length_append, List.length_singleton]
          omega
      · exact forestWF_append_root hwf rfl
      · intro p hp
        cases hp
        simp
    | some p0 =>
      have hp0 := hpi p0 rfl
      obtain ⟨np, hnp⟩ : ∃ np, st.nodes.get? p0 = some np := by
        rw [List.get?_eq_getElem?]
        exact ⟨_, List.getElem?_eq_getElem hp0⟩
      rw [stepComp_new_child hlk]
      refine ⟨⟨?_, ?_⟩, ?_⟩
      · intro kv hkv
        rcases List.mem_cons.mp hkv with he | hm
        · subst he
          simp [addChild_length]
        · have := hmb kv hm
          simp only [addChild_length, List.length_append, List.length_singleton]
          omega
      · exact forestWF_append_child hwf rfl hnp
      · intro p hp
        cases hp
        simp [addChild_length]

lemma foldl_stepComp_TInv {rel : List String} :
    ∀ (comps : List String) {t : BuildState × List String × Option Nat},
      TInv t → TInv (comps.foldl (stepComp rel) t) := by
  intro comps
  induction comps with
  | nil =>
    intro t h
    exact h
  | cons c cs ih =>
    intro t h
    exact ih (stepComp_TInv h c)

/-- The builder of `App::new` always produces a sound builder state; in
particular the resulting arena is a well-formed forest. -/
lemma buildState_BInv (files : List FileNode) : BInv (buildState files) := by
  unfold buildState
  have key : ∀ (fs : List FileNode) (st : BuildState), BInv st →
      BInv (fs.foldl
        (fun st f => (f.relative_path.foldl (stepComp f.relative_path) (st, [], none)).1)
        st) := by
    intro fs
    induction fs with
    | nil =>
      intro st h
      exact h
    | cons f t ih =>
      intro st h
      apply ih
      have ht : TInv ((st, [], none) : BuildState × List String × Option Nat) :=
        ⟨h, fun p hp => by cases hp⟩
      exact (foldl_stepComp_TInv f.relative_path ht).1
  apply key
  constructor
  · intro kv hkv
    cases hkv
  · decide

lemma AppNew_wf (files : List FileNode) (rootPath : List String) :
    ForestWF (AppNew files rootPath).nodes (AppNew files rootPath).root_indices :=
  (buildState_BInv files).2

/-! ## The state invariant is preserved by every operation -/

lemma appInv_AppNew (files : List FileNode) (rootPath : List String) :
    AppInv (AppNew files rootPath) := by
  refine ⟨AppNew_wf files rootPath, rfl, ?_⟩
  intro hne
  have hne' :
      computeView (buildState files).nodes (buildState files).rootIndices ≠ [] :=
    hne
  have hempty :
      (computeView (buildState files).nodes (buildState files).rootIndices).isEmpty
        = false := by
    cases hc : (computeView (buildState files).nodes
        (buildState files).rootIndices).isEmpty
    · rfl
    · exact absurd (List.isEmpty_iff.mp hc) hne'
  refine ⟨0, ?_, ?_⟩
  · show (if (computeView (buildState files).nodes (buildState files).rootIndices).isEmpty
        then none else some 0) = some 0
    rw [hempty]
    rfl
  · have : (AppNew files rootPath).view_items ≠ [] := hne
    exact List.length_pos.mpr hne

lemma appInv_toggleSelection {a : App} (h : AppInv a) :
    AppInv (toggleSelection a) := by
  obtain ⟨hwf, hview, hcur⟩ := h
  cases hls : a.list_state with
  | none =>
    rw [toggleSelection_noop_none hls]
    exact ⟨hwf, hview, hcur⟩
  | some si =>
    cases hv : a.view_items.get? si with
    | none =>
      rw [toggleSelection_noop_oob hls hv]
      exact ⟨hwf, hview, hcur⟩
    | some ni =>
      cases hn : a.nodes.get? ni with
      | none =>
        rw [toggleSelection_noop_nonode hls hv hn]
        exact ⟨hwf, hview, hcur⟩
      | some n =>
        rw [toggleSelection_eq hls hv hn]
        refine ⟨?_, ?_, ?_⟩
        · exact forestWF_congr (setSels_length _ _ _ _)
            (setSels_childs _ _ _ _) hwf
        · show a.view_items =
            computeView (setSels a.nodes.length a.nodes ni (!n.selected))
              a.root_indices
          rw [hview]
          exact (computeView_selmap_congr (setSels_length _ _ _ _)
            (setSels_shape _ _ _ _)).symm
        · intro hne
          rcases hcur hne with ⟨i, hi, hilen⟩
          exact ⟨i, hi, hilen⟩

lemma appInv_toggleExpand {a : App} (h : AppInv a) :
    AppInv (toggleExpand a) := by
  obtain ⟨hwf, hview, hcur⟩ := h
  cases hls : a.list_state with
  | none =>
    rw [toggleExpand_noop_none hls]
    exact ⟨hwf, hview, hcur⟩
  | some si =>
    cases hv : a.view_items.get? si with
    | none =>
      rw [toggleExpand_noop_oob hls hv]
      exact ⟨hwf, hview, hcur⟩
    | some d =>
      cases hn : a.nodes.get? d with
      | none =>
        rw [toggleExpand_noop_nonode hls hv hn]
        exact ⟨hwf, hview, hcur⟩
      | some nd =>
        by_cases hdir : nd.is_dir = true
        · rw [toggleExpand_eq hls hv hn hdir]
          have hlen : (a.nodes.set d { nd with expanded := !nd.expanded }).length
              = a.nodes.length := List.length_set _ _ _
          have hch := childs_set_same (x := { nd with expanded := !nd.expanded })
            hn rfl
          refine ⟨forestWF_congr hlen hch hwf, rfl, ?_⟩
          intro _
          have hview_ne : a.view_items ≠ [] := by
            intro he
            rw [he] at hv
            cases hv
          rcases hcur hview_ne with ⟨i, hi, hilen⟩
          have hsi : i = si := by
            rw [hls] at hi
            exact (Option.some.inj hi).symm
          subst hsi
          have hnd2 : a.view_items.Nodup := by
            rw [hview]
            exact computeView_nodup hwf
          have hfirst : d ∉ a.view_items.take i := nodup_not_mem_take hnd2 hv
          have hd_mem : d ∈ computeView a.nodes a.root_indices := by
            rw [← hview]
            exact List.get?_mem hv
          rcases computeView_split (x := { nd with expanded := !nd.expanded })
            hd_mem with ⟨P, S, S', e1, e2, hP⟩
          have hiP : i = P.length :=
            first_occ_index (hview.trans e1) hP hv hfirst
          refine ⟨i, hi, ?_⟩
          show i < (computeView
            (a.nodes.set d { nd with expanded := !nd.expanded })
            a.root_indices).length
          rw [e2, hiP, List.length_append]
          simp
        · rw [toggleExpand_noop_notdir hls hv hn hdir]
          exact ⟨hwf, hview, hcur⟩

lemma appInv_moveUp {a : App} (h : AppInv a) : AppInv (moveUp a) := by
  obtain ⟨hwf, hview, hcur⟩ := h
  refine ⟨hwf, hview, ?_⟩
  intro hne
  rcases hcur hne with ⟨i, hi, hilen⟩
  simp only [moveUp, hi]
  refine ⟨if i = 0 then 0 else i - 1, rfl, ?_⟩
  split
  · exact Nat.lt_of_le_of_lt (Nat.zero_le i) hilen
  · omega

lemma appInv_moveDown {a b : App} (h : AppInv a) (hb : moveDown a = some b) :
    AppInv b := by
  obtain ⟨hwf, hview, hcur⟩ := h
  unfold moveDown at hb
  cases hls : a.list_state with
  | none =>
    rw [hls] at hb
    have := Option.some.inj hb
    subst this
    refine ⟨hwf, hview, ?_⟩
    intro hne
    exact ⟨0, rfl, List.length_pos.mpr hne⟩
  | some i =>
    rw [hls] at hb
    rcases hL : a.view_items.length with _ | L
    · rw [hL] at hb
      cases hb
    · rw [hL] at hb
      have := Option.some.inj hb
      subst this
      refine ⟨hwf, hview, ?_⟩
      intro _
      refine ⟨if L ≤ i then L else i + 1, rfl, ?_⟩
      show (if L ≤ i then L else i + 1) < a.view_items.length
      rw [hL]
      split
      · omega
      · omega

lemma appInv_confirm {a : App} (h : AppInv a) : AppInv (confirmApp a) := by
  obtain ⟨hwf, hview, hcur⟩ := h
  exact ⟨hwf, hview, hcur⟩

lemma appInv_quit {a : App} (h : AppInv a) : AppInv (quitApp a) := by
  obtain ⟨hwf, hview, hcur⟩ := h
  exact ⟨hwf, hview, hcur⟩

/-- Every reachable application state satisfies the invariant. -/
lemma reachable_inv {a : App} (h : ReachableApp a) : AppInv a := by
  induction h with
  | init files rootPath => exact appInv_AppNew files rootPath
  | sel _ ih => exact appInv_toggleSelection ih
  | exp _ ih => exact appInv_toggleExpand ih
  | up _ ih => exact appInv_moveUp ih
  | down _ hb ih => exact appInv_moveDown ih hb
  | conf _ ih => exact appInv_confirm ih
  | quit _ ih => exact appInv_quit ih

/-! ## Claim C4 -/

/-- Claim C4, counterexample: the claimed invariant — in every reachable
state `list_state` is `None` or a valid index into `view_items` — fails.
From the app built from an empty scan (empty view, `list_state = None`),
one `move_down` reaches a state with `list_state = Some 0` while the
view is still empty, so the stored index is not below the view length.
No operation re-clamps the cursor; the claimed post-condition is absent
from the code. -/
theorem C4_counterexample :
    ∃ a : App, ReachableApp a ∧
      ∃ i, a.list_state = some i ∧ ¬ i < a.view_items.length := by
  refine ⟨{ nodes := [], root_indices := [], list_state := some 0,
            view_items := [], should_quit := false, confirmed := false },
    ?_, 0, rfl, by decide⟩
  exact ReachableApp.down (ReachableApp.init [] []) rfl

/-- Claim C4 (amended): in every reachable state whose view is
non-empty, the cursor is `Some i` with `i` a valid index into
`view_items`.  This holds not by re-clamping (none exists) but because
`toggle_expand` only toggles the node at the cursor itself, which keeps
its view position, and the move operations stay in range on a non-empty
view; only on an empty view can the cursor become the out-of-range
`Some 0` (see the counterexample). -/
theorem C4_cursor_valid (a : App) (h : ReachableApp a)
    (hne : a.view_items ≠ []) :
    ∃ i, a.list_state = some i ∧ i < a.view_items.length :=
  (reachable_inv h).2.2 hne

/-- Witness for C4: the amended theorem applied at the freshly built
one-file app, whose view is non-empty. -/
theorem C4_witness :
    ∃ i, (AppNew [⟨"/r/a.txt", ["a.txt"]⟩] []).list_state = some i ∧
      i < (AppNew [⟨"/r/a.txt", ["a.txt"]⟩] []).view_items.length :=
  C4_cursor_valid (AppNew [⟨"/r/a.txt", ["a.txt"]⟩] [])
    (ReachableApp.init [⟨"/r/a.txt", ["a.txt"]⟩] []) (by decide)

end FluxContext
